import Mathlib

/-!
Verification of the auth packet pipeline (modulus scramble, running-key
scramble, cipher byte-order shim, message codec, packet sender).

Byte buffers are modelled as `List Nat` (each element a byte value `< 256`
where a claim needs it); 32-bit machine integers are modelled as `Nat`
taken modulo `2 ^ 32`, which agrees with two's-complement wrapping
addition and bitwise XOR on the corresponding bit patterns.  In-place
slice mutation is modelled with `List.set`; a Rust `panic!` from an
out-of-bounds slice access and an `Err` from a failed cursor read/write
are both modelled by `Option`/error results, as noted at each definition.
-/

namespace MMO

/-- Size of the packet header (`HEADER_SIZE` in `auth/mod.rs`). -/
def HEADER_SIZE : Nat := 2

/-- Size of the IO buffers (`BUFFER_SIZE` in `auth/mod.rs`). -/
def BUFFER_SIZE : Nat := 1024

/-- Size of the block for IO operations (`BLOCK_SIZE` in `auth/mod.rs`).
In the definitions below this constant mostly appears as the literal `4`. -/
def BLOCK_SIZE : Nat := 4

/-- Initial traffic-encryption key (`INIT_KEY` in `auth/mod.rs`). -/
def INIT_KEY : List Nat :=
  [0x6B, 0x60, 0xCB, 0x5B, 0x82, 0xCE, 0x90, 0xB1,
   0xCC, 0x2B, 0x6C, 0x55, 0x6C, 0x6C, 0x6C, 0x6C]

/-- Model of `slice::swap i j`: the elements at `i` and `j` exchange
places (both reads happen before either write, as in Rust). -/
def swapIdx (l : List Nat) (i j : Nat) : List Nat :=
  (l.set i (l.getD j 0)).set j (l.getD i 0)

/-- Model of `buf[i] ^= buf[j]` on a byte slice. -/
def xorUpd (l : List Nat) (i j : Nat) : List Nat :=
  l.set i ((l.getD i 0) ^^^ (l.getD j 0))

/-- Model of `scramble_modulus` (`auth/crypt.rs`): four in-place loops over
the modulus buffer, exactly in source order (swap loop, XOR-fold of the
upper half onto the lower half, the `13/52` XOR loop, XOR-fold of the
lower half onto the upper half). -/
def scramble_modulus (l : List Nat) : List Nat :=
  let l1 := (List.range 4).foldl (fun acc i => swapIdx acc i (i + 77)) l
  let l2 := (List.range 64).foldl (fun acc i => xorUpd acc i (i + 64)) l1
  let l3 := (List.range 4).foldl (fun acc i => xorUpd acc (i + 13) (i + 52)) l2
  (List.range 64).foldl (fun acc i => xorUpd acc (i + 64) i) l3

/-- Spec rendering of step (1) of the claim about `scramble_modulus`:
a simultaneous (not sequential) description of the swap loop, reading
only the pre-step buffer. -/
def step1S (l : List Nat) : List Nat :=
  (List.range 128).map fun j =>
    if j < 4 then l.getD (j + 77) 0
    else if 77 ≤ j ∧ j < 81 then l.getD (j - 77) 0
    else l.getD j 0

/-- Spec rendering of step (2): `buf[i] ^= buf[i+64]` for `i < 64`,
reading only the post-step-1 buffer. -/
def step2S (l : List Nat) : List Nat :=
  (List.range 128).map fun j =>
    if j < 64 then l.getD j 0 ^^^ l.getD (j + 64) 0 else l.getD j 0

/-- Spec rendering of step (3): `buf[i+13] ^= buf[i+52]` for `i < 4`,
reading only the post-step-2 buffer. -/
def step3S (l : List Nat) : List Nat :=
  (List.range 128).map fun j =>
    if 13 ≤ j ∧ j < 17 then l.getD j 0 ^^^ l.getD (j + 39) 0 else l.getD j 0

/-- Spec rendering of step (4): `buf[i+64] ^= buf[i]` for `i < 64`,
reading only the post-step-3 buffer. -/
def step4S (l : List Nat) : List Nat :=
  (List.range 128).map fun j =>
    if 64 ≤ j then l.getD j 0 ^^^ l.getD (j - 64) 0 else l.getD j 0

/-- Staged composition of the four simultaneous per-step descriptions:
each step reads exactly the values produced by the previous step.  This
is the claim's description of `scramble_modulus`. -/
def scrambleModulusSpec (l : List Nat) : List Nat :=
  step4S (step3S (step2S (step1S l)))

/-- Value of the 4-byte little-endian block of `l` at offset `off`
(model of `read_i32::<LittleEndian>` on the slice `&l[off..]`, as a
32-bit two's-complement bit pattern). -/
def readBlockLE (l : List Nat) (off : Nat) : Nat :=
  l.getD off 0 + 256 * l.getD (off + 1) 0 +
    65536 * l.getD (off + 2) 0 + 16777216 * l.getD (off + 3) 0

/-- Write the 4-byte little-endian representation of `v` at offset `off`
(model of `write_i32::<LittleEndian>` on the slice `&mut l[off..]`). -/
def writeBlockLE (l : List Nat) (off v : Nat) : List Nat :=
  (((l.set off (v % 256)).set (off + 1) (v / 256 % 256)).set
    (off + 2) (v / 65536 % 256)).set (off + 3) (v / 16777216 % 256)

/-- Model of the loop of `scramble_init` (`auth/crypt.rs`): process `n`
4-byte blocks starting at `off`, accumulating the running key with
wrapping 32-bit addition and XORing each block with the updated key.
`none` models the `Err` from `read_i32`/`write_i32` when fewer than four
bytes remain at the current offset. -/
def scrambleBlocks : List Nat → Nat → Nat → Nat → Option (List Nat × Nat)
  | buf, key, _, 0 => some (buf, key)
  | buf, key, off, Nat.succ n =>
    if off + 4 ≤ buf.length then
      let b := readBlockLE buf off
      let key' := (key + b) % 4294967296
      scrambleBlocks (writeBlockLE buf off (b ^^^ key')) key' (off + 4) n
    else none

/-- Model of `scramble_init` (`auth/crypt.rs`): blocks at offsets
`4, 8, ...` strictly below `size` are scrambled with the running key
(the iterator `(BLOCK_SIZE..size).step_by(BLOCK_SIZE)` yields
`(size - 4 + 3) / 4` offsets), then the final key is written as a
trailing little-endian block at offset `size`.  `none` models the
propagated IO error of the source on an out-of-range access. -/
def scramble_init (buffer : List Nat) (size key : Nat) : Option (List Nat) :=
  match scrambleBlocks buffer key 4 ((size - 4 + 3) / 4) with
  | none => none
  | some (buf, k) =>
    if size + 4 ≤ buf.length then some (writeBlockLE buf size k) else none

/-- Sum of the `n` original 4-byte little-endian block values of `buf`
at offsets `off, off + 4, ..., off + 4 * (n - 1)` (the claim's
description of the running-key accumulator reads the blocks in original,
pre-mutation form). -/
def blockSum (buf : List Nat) (off : Nat) : Nat → Nat
  | 0 => 0
  | Nat.succ n => readBlockLE buf off + blockSum buf (off + 4) n

/-- Byte `j` of the result of the running-key scramble, written from the
claim's description: the first 4-byte block is untouched; each block at
an offset in `[4, size)` is replaced by `b XOR k` where `k` is the
running key after wrapping-adding the original value `b`; the trailing
block at offset `size` carries the wrapping sum of the initial key with
every original block value in `[4, size)`; all other bytes are
untouched. -/
def initSpecByte (buffer : List Nat) (size key j : Nat) : Nat :=
  if j < 4 then buffer.getD j 0
  else if j < size then
    (readBlockLE buffer (4 * (j / 4)) ^^^
      ((key + blockSum buffer 4 (j / 4)) % 4294967296)) / 256 ^ (j % 4) % 256
  else if j < size + 4 then
    ((key + blockSum buffer 4 (size / 4 - 1)) % 4294967296) /
      256 ^ (j - size) % 256
  else buffer.getD j 0

/-- The claim's description of the full result of `scramble_init`. -/
def initSpec (buffer : List Nat) (size key : Nat) : List Nat :=
  (List.range buffer.length).map (initSpecByte buffer size key)

/-- Structural description of the byte-order shim on a block-aligned
buffer: every 4-byte group is reversed; a trailing group of fewer than
four bytes is left as is (such a group makes the in-place version panic
instead, see `blowfish_compat`). -/
def compatPure : List Nat → List Nat
  | a :: b :: c :: d :: rest => d :: c :: b :: a :: compatPure rest
  | l => l

/-- Model of the loop of `blowfish_compat` (`auth/crypt.rs`): `n`
iterations starting at `off`, each swapping `off ↔ off+3` and
`off+1 ↔ off+2`.  `none` models the `panic!` of `slice::swap` when
`off + 3` is out of bounds. -/
def compatBlocks : List Nat → Nat → Nat → Option (List Nat)
  | buf, _, 0 => some buf
  | buf, off, Nat.succ n =>
    if off + 3 < buf.length then
      compatBlocks (swapIdx (swapIdx buf off (off + 3)) (off + 1) (off + 2))
        (off + 4) n
    else none

/-- Model of `blowfish_compat` (`auth/crypt.rs`): the source loop
`(0..buffer.len()).step_by(BLOCK_SIZE)` performs `⌈len/4⌉ = (len+3)/4`
iterations. -/
def blowfish_compat (buf : List Nat) : Option (List Nat) :=
  compatBlocks buf 0 ((buf.length + 3) / 4)

/-- Little-endian 4-byte image of the 32-bit value `n % 2^32` (model of
`write_i32::<LittleEndian>` on a stream). -/
def i32LE (n : Nat) : List Nat :=
  [n % 256, n / 256 % 256, n / 65536 % 256, n / 16777216 % 256]

/-- Overwrite `bs` into `data` at position `pos` (model of writing to a
`Cursor` over a byte vector: existing bytes are overwritten, a gap past
the end is zero-filled, the vector grows as needed). -/
def writeAt (data : List Nat) (pos : Nat) (bs : List Nat) : List Nat :=
  data.take pos ++ List.replicate (pos - data.length) 0 ++ bs ++
    data.drop (pos + bs.length)

/-- A seekable output stream: backing bytes plus a write position
(model of `Cursor<&mut Vec<u8>>`). -/
structure WStream where
  data : List Nat
  pos : Nat
deriving DecidableEq

/-- Model of `write_b` (`io.rs`): raw byte span write. -/
def writeB (s : WStream) (bs : List Nat) : WStream :=
  ⟨writeAt s.data s.pos bs, s.pos + bs.length⟩

/-- Model of `write_c` (`io.rs`): single byte write. -/
def writeC (s : WStream) (b : Nat) : WStream :=
  writeB s [b % 256]

/-- Model of `write_d` (`io.rs`): 4-byte little-endian write. -/
def writeD (s : WStream) (n : Nat) : WStream :=
  writeB s (i32LE n)

/-- Model of `seek(SeekFrom::Current(n))` for `n ≥ 0`: the position
advances, the backing bytes are untouched. -/
def seekCur (s : WStream) (n : Nat) : WStream :=
  ⟨s.data, s.pos + n⟩

/-- Result code of the GameGuard acknowledgement (`GGAuthResult`). -/
inductive GGAuthResult
  | skip
deriving DecidableEq

/-- Numeric value of a `GGAuthResult` (`Skip = 0x0b`). -/
def GGAuthResult.toNat : GGAuthResult → Nat
  | .skip => 0x0b

/-- Outbound server messages (`ServerMessage` in `auth/message.rs`).
The source fixes `modulus : [u8; 128]` and `crypt_key : [u8; 16]`; here
they are lists whose lengths are constrained in the theorems. -/
inductive ServerMessage
  | init (session_id : Nat) (modulus : List Nat) (crypt_key : List Nat)
  | ggAuth (result : GGAuthResult)
deriving DecidableEq

/-- Well-formedness of a message in this embedding: the source's array
types fix the `Init` modulus at 128 bytes and the traffic key at 16
bytes (`[u8; 128]`, `[u8; 16]`); list-based messages carry the lengths
as a side condition. -/
def wfMessage : ServerMessage → Prop
  | .init _ m k => m.length = 128 ∧ k.length = 16
  | .ggAuth _ => True

/-- Protocol version constant (`PROTOCOL_VERSION = 0xc621`). -/
def PROTOCOL_VERSION : Nat := 0xc621

/-- Model of `encode` (`auth/message.rs`).  For `Init` the modulus is
scrambled on a by-value copy (the Rust function consumes the message, so
the caller's array is never mutated) and the 16 reserved bytes are
skipped with a seek, leaving the zero-initialized backing bytes. -/
def encode : ServerMessage → WStream → WStream
  | .init sid modulus key, s =>
    writeB
      (seekCur
        (writeB (writeD (writeD (writeC s 0x00) sid) PROTOCOL_VERSION)
          (scramble_modulus modulus)) 16) key
  | .ggAuth r, s => seekCur (writeD (writeC s 0x0b) r.toNat) 16

/-- Inbound client messages (`ClientMessage` in `auth/message.rs`). -/
inductive ClientMessage
  | authGameGuard
deriving DecidableEq

/-- Decode failures: `eof` models the propagated read error on an empty
stream, `invalidPacketId b` models the `InvalidData` error whose message
carries the offending byte `b` (source: `Invalid packet id (0x..)`). -/
inductive DecodeError
  | eof
  | invalidPacketId (id : Nat)
deriving DecidableEq

/-- Model of `decode` (`auth/message.rs`): read one tag byte; `0x07`
yields `AuthGameGuard` with no further bytes consumed (the unread rest
of the input is returned); any other byte yields the malformed-input
error carrying that byte. -/
def decode : List Nat → Except DecodeError (ClientMessage × List Nat)
  | [] => .error .eof
  | b :: rest =>
    if b = 0x07 then .ok (.authGameGuard, rest)
    else .error (.invalidPacketId b)

/-- The pair of directional cipher instances of `AuthClientCrypt`:
each is represented by its key, since the wrapped cipher is a pure
function of key and input in this model. -/
structure CryptState where
  ekey : List Nat
  dkey : List Nat
deriving DecidableEq

/-- Model of `AuthClientCrypt::update_key`: both directions are rebuilt
from the same new key. -/
def update_key (_st : CryptState) (key : List Nat) : CryptState :=
  ⟨key, key⟩

/-- Errors surfaced by `send`.  `encodingOverflow` is the
`InvalidData`-kind error of `pad`; `ioFailure` covers the propagated IO
errors (transport writes and the cursor errors of `scramble_init`);
`outOfBounds` marks a state in which the source would panic on a slice
access (never reached on the paths the claims quantify over). -/
inductive SendError
  | encodingOverflow
  | ioFailure
  | outOfBounds
deriving DecidableEq

/-- Round `size` up to the next multiple of `bs` (the arithmetic of
`AuthClientSenderImpl::pad`). -/
def roundUp (size bs : Nat) : Nat :=
  if size % bs ≠ 0 then size + (bs - size % bs) else size

/-- Model of `AuthClientSenderImpl::pad`: round up, then fail with the
overflow error if the padded size reaches `BUFFER_SIZE`. -/
def pad (size bs : Nat) : Except SendError Nat :=
  if roundUp size bs < BUFFER_SIZE then .ok (roundUp size bs)
  else .error .encodingOverflow

/-- The transport: a byte sink holding the bytes written so far, a
capacity after which writes fail (a minimal model of a `Write`
implementation whose `write_all` can fail part-way through a frame, as
any socket can), and a flag saying whether its `flush` succeeds.  A
failing `write_all` appends the prefix that still fits and reports
failure; `flush` moves no further bytes and merely succeeds or fails
according to the sink. -/
structure Transport where
  cap : Nat
  written : List Nat
  flushOk : Bool
deriving DecidableEq

/-- Model of `write_all` on the transport. -/
def twrite (t : Transport) (bs : List Nat) : Bool × Transport :=
  if t.written.length + bs.length ≤ t.cap then
    (true, ⟨t.cap, t.written ++ bs, t.flushOk⟩)
  else
    (false, ⟨t.cap, t.written ++ bs.take (t.cap - t.written.length),
      t.flushOk⟩)

/-- Model of `flush` on the transport (`self.writer.flush()?` in
`send`): no bytes are moved; the call succeeds or fails according to
the sink. -/
def tflush (t : Transport) : Bool :=
  t.flushOk

/-- Everything `AuthClientSenderImpl::send` does before the crypto-state
lock is taken, on the zeroed 1024-byte packet buffer: encode, pad,
write the zero checksum, optionally (for `Init`) pad and apply the
running-key scramble with the fresh random key `randKey`, pad, apply the
byte-order shim in place on the first `size` bytes, and pad to the
cipher block size (8 for the wrapped cipher).  Returns the packet buffer
and the final size of the plaintext slice passed to the cipher. -/
def prepare (randKey : Nat) (msg : ServerMessage) :
    Except SendError (List Nat × Nat) :=
  let s := encode msg ⟨List.replicate 1024 0, 0⟩
  match pad s.pos 4 with
  | .error e => .error e
  | .ok size1 =>
    let packet1 := writeAt s.data size1 (i32LE 0)
    let size2 := size1 + 4
    match (match msg with
           | .init _ _ _ =>
             (match pad size2 4 with
              | .error e => Except.error e
              | .ok size3 =>
                match scramble_init packet1 size3 randKey with
                | some p => Except.ok (p, size3 + 4)
                | none => Except.error SendError.ioFailure)
           | .ggAuth _ =>
             (Except.ok (packet1, size2) :
               Except SendError (List Nat × Nat))) with
    | .error e => .error e
    | .ok (packet3, size4) =>
      match pad size4 4 with
      | .error e => .error e
      | .ok size5 =>
        match blowfish_compat (packet3.take size5) with
        | none => .error SendError.outOfBounds
        | some sh =>
          match pad size5 8 with
          | .error e => .error e
          | .ok size6 => .ok (sh ++ packet3.drop size5, size6)

/-- The 2-byte little-endian length header written ahead of an encrypted
body (`write_h((size + HEADER_SIZE) as i16)`; the `as i16` cast wraps
modulo `2^16`). -/
def headerOf (encrypted : List Nat) : List Nat :=
  [(encrypted.length + 2) % 256, (encrypted.length + 2) % 65536 / 256]

/-- Outcome of one `send` call: the error if any, the crypto state after
the call, and the transport after the call. -/
structure SendResult where
  res : Option SendError
  crypt : CryptState
  transport : Transport
deriving DecidableEq

/-- Model of `AuthClientSenderImpl::send`, parameterized by the block
cipher `E` (key → plaintext → ciphertext, the externally supplied
Blowfish-ECB primitive).  `randKey` is the 32-bit value read from the
four random bytes of the first-packet scramble.  Inside the critical
section the plaintext is encrypted under the *current* encrypt key and
then, for `Init` only, both cipher directions are re-keyed via
`update_key` with the message's traffic key; afterwards the shimmed
ciphertext is framed, the header and the body are written to the
transport with two `write_all` calls, and the transport is flushed
(any of the three can fail with an IO error). -/
def sendBody (E : List Nat → List Nat → List Nat) (st : CryptState)
    (t : Transport) (msg : ServerMessage) (packet : List Nat) (size : Nat) :
    SendResult :=
  let encrypted := E st.ekey (packet.take size)
  let st' : CryptState :=
    match msg with
    | .init _ _ k => update_key st k
    | .ggAuth _ => st
  match blowfish_compat encrypted with
  | none => ⟨some SendError.outOfBounds, st', t⟩
  | some body =>
    match twrite t (headerOf encrypted) with
    | (true, t1) =>
      (match twrite t1 body with
       | (true, t2) =>
         (match tflush t2 with
          | true => ⟨none, st', t2⟩
          | false => ⟨some SendError.ioFailure, st', t2⟩)
       | (false, t2) => ⟨some SendError.ioFailure, st', t2⟩)
    | (false, t1) => ⟨some SendError.ioFailure, st', t1⟩

def send (E : List Nat → List Nat → List Nat) (randKey : Nat)
    (st : CryptState) (t : Transport) (msg : ServerMessage) : SendResult :=
  match prepare randKey msg with
  | .error e => ⟨some e, st, t⟩
  | .ok (packet, size) => sendBody E st t msg packet size

/-- Identity cipher, used to instantiate the cipher parameter in
concrete witness computations. -/
def idCipher : List Nat → List Nat → List Nat :=
  fun _ body => body

/-! ### Helper lemmas on list updates -/

theorem getD_set (l : List Nat) (i j v : Nat) :
    (l.set i v).getD j 0 = if i = j ∧ j < l.length then v else l.getD j 0 := by
  induction l generalizing i j with
  | nil => simp [List.set]
  | cons a t ih =>
    cases i with
    | zero =>
      cases j with
      | zero => simp
      | succ j => simp [Nat.succ_lt_succ_iff]
    | succ i =>
      cases j with
      | zero => simp
      | succ j =>
        simp only [List.set, List.getD_cons_succ, List.length_cons, ih i j,
          Nat.succ_lt_succ_iff]
        split_ifs <;> first | rfl | omega

theorem length_swapIdx (l : List Nat) (i j : Nat) :
    (swapIdx l i j).length = l.length := by
  simp [swapIdx]

theorem length_xorUpd (l : List Nat) (i j : Nat) :
    (xorUpd l i j).length = l.length := by
  simp [xorUpd]

theorem getD_swapIdx (l : List Nat) (i j k : Nat) :
    (swapIdx l i j).getD k 0 =
      if j = k ∧ k < l.length then l.getD i 0
      else if i = k ∧ k < l.length then l.getD j 0
      else l.getD k 0 := by
  simp only [swapIdx, getD_set, List.length_set]

theorem getD_xorUpd (l : List Nat) (i j k : Nat) :
    (xorUpd l i j).getD k 0 =
      if i = k ∧ k < l.length then (l.getD i 0) ^^^ (l.getD j 0)
      else l.getD k 0 := by
  simp only [xorUpd, getD_set]

theorem getD_out_of_range (l : List Nat) (j : Nat) (h : l.length ≤ j) :
    l.getD j 0 = 0 := by
  rw [List.getD_eq_getElem?_getD, List.getElem?_eq_none h]
  rfl

/-- Extensionality for byte buffers pointwise described with `getD`. -/
theorem list_ext_getD (l₁ l₂ : List Nat) (hlen : l₁.length = l₂.length)
    (h : ∀ j, l₁.getD j 0 = l₂.getD j 0) : l₁ = l₂ := by
  apply List.ext_getElem hlen
  intro i h1 h2
  have := h i
  simpa [List.getD_eq_getElem?_getD, List.getElem?_eq_getElem, h1, h2] using this

theorem length_foldl_inv {β : Type} (f : List Nat → β → List Nat)
    (hf : ∀ acc b, (f acc b).length = acc.length) (l : List β) (init : List Nat) :
    (l.foldl f init).length = init.length := by
  induction l generalizing init with
  | nil => rfl
  | cons b t ih => simp [List.foldl_cons, ih, hf]

theorem length_scramble_modulus (l : List Nat) :
    (scramble_modulus l).length = l.length := by
  simp only [scramble_modulus]
  rw [length_foldl_inv _ (fun acc i => length_xorUpd acc (i + 64) i),
      length_foldl_inv _ (fun acc i => length_xorUpd acc (i + 13) (i + 52)),
      length_foldl_inv _ (fun acc i => length_xorUpd acc i (i + 64)),
      length_foldl_inv _ (fun acc i => length_swapIdx acc i (i + 77))]

theorem getD_append_right (pre xs : List Nat) (k : Nat) :
    (pre ++ xs).getD (pre.length + k) 0 = xs.getD k 0 := by
  induction pre with
  | nil => simp
  | cons a t ih => simpa [Nat.succ_add] using ih

theorem set_append_right (pre xs : List Nat) (k v : Nat) :
    (pre ++ xs).set (pre.length + k) v = pre ++ xs.set k v := by
  induction pre with
  | nil => simp
  | cons a t ih => simp [Nat.succ_add, List.set, ih]

theorem swapIdx_append (pre xs : List Nat) (i j : Nat) :
    swapIdx (pre ++ xs) (pre.length + i) (pre.length + j) =
      pre ++ swapIdx xs i j := by
  simp only [swapIdx, getD_append_right, set_append_right]

theorem swapBlock_append (pre : List Nat) (a b c d : Nat) (rest : List Nat) :
    swapIdx (swapIdx (pre ++ a :: b :: c :: d :: rest) pre.length
        (pre.length + 3)) (pre.length + 1) (pre.length + 2) =
      pre ++ d :: c :: b :: a :: rest := by
  have h1 : swapIdx (pre ++ a :: b :: c :: d :: rest) pre.length
      (pre.length + 3) = pre ++ swapIdx (a :: b :: c :: d :: rest) 0 3 := by
    simpa using swapIdx_append pre (a :: b :: c :: d :: rest) 0 3
  rw [h1]
  have h2 : swapIdx (a :: b :: c :: d :: rest) 0 3 = d :: b :: c :: a :: rest := rfl
  rw [h2, swapIdx_append pre (d :: b :: c :: a :: rest) 1 2]
  rfl

theorem getD_congr (l : List Nat) (i j : Nat) (h : i = j) :
    l.getD i 0 = l.getD j 0 := by rw [h]

theorem getD_range_map (f : Nat → Nat) (m j : Nat) :
    ((List.range m).map f).getD j 0 = if j < m then f j else 0 := by
  by_cases h : j < m
  · simp [List.getD_eq_getElem?_getD, List.getElem?_map, List.getElem?_range, h]
  · rw [getD_out_of_range _ j (by simp; omega), if_neg h]

/-! ### The modulus scramble as a staged computation (C4) -/

theorem foldSwap_getD (l : List Nat) (hl : l.length = 128) :
    ∀ n, n ≤ 4 → ∀ j,
      ((List.range n).foldl (fun acc i => swapIdx acc i (i + 77)) l).getD j 0 =
        if j < n then l.getD (j + 77) 0
        else if 77 ≤ j ∧ j < 77 + n then l.getD (j - 77) 0
        else l.getD j 0 := by
  intro n
  induction n with
  | zero =>
    intro _ j
    simp only [List.range_zero, List.foldl_nil]
    rw [if_neg (by omega), if_neg (by omega)]
  | succ n ih =>
    intro hn j
    rw [List.range_succ, List.foldl_append, List.foldl_cons, List.foldl_nil]
    have hglen :
        ((List.range n).foldl (fun acc i => swapIdx acc i (i + 77)) l).length
          = 128 := by
      rw [length_foldl_inv _ (fun acc i => length_swapIdx acc i (i + 77))]
      exact hl
    rw [getD_swapIdx, hglen, ih (by omega) (n + 77), ih (by omega) n,
      ih (by omega) j]
    split_ifs <;>
      first
        | rfl
        | omega
        | exact getD_out_of_range l _ (by omega)
        | exact getD_congr l _ _ (by omega)

theorem foldXorLow_getD (l : List Nat) (hl : l.length = 128) :
    ∀ n, n ≤ 64 → ∀ j,
      ((List.range n).foldl (fun acc i => xorUpd acc i (i + 64)) l).getD j 0 =
        if j < n then l.getD j 0 ^^^ l.getD (j + 64) 0
        else l.getD j 0 := by
  intro n
  induction n with
  | zero =>
    intro _ j
    simp only [List.range_zero, List.foldl_nil]
    rw [if_neg (by omega)]
  | succ n ih =>
    intro hn j
    rw [List.range_succ, List.foldl_append, List.foldl_cons, List.foldl_nil]
    have hglen :
        ((List.range n).foldl (fun acc i => xorUpd acc i (i + 64)) l).length
          = 128 := by
      rw [length_foldl_inv _ (fun acc i => length_xorUpd acc i (i + 64))]
      exact hl
    rw [getD_xorUpd, hglen, ih (by omega) n, ih (by omega) (n + 64),
      ih (by omega) j]
    split_ifs <;>
      first
        | rfl
        | omega
        | exact getD_congr l _ _ (by omega)
        | exact congrArg₂ (fun a b => a ^^^ b) (getD_congr l _ _ (by omega))
            (getD_congr l _ _ (by omega))

theorem foldXorMid_getD (l : List Nat) (hl : l.length = 128) :
    ∀ n, n ≤ 4 → ∀ j,
      ((List.range n).foldl (fun acc i => xorUpd acc (i + 13) (i + 52)) l).getD
          j 0 =
        if 13 ≤ j ∧ j < 13 + n then l.getD j 0 ^^^ l.getD (j + 39) 0
        else l.getD j 0 := by
  intro n
  induction n with
  | zero =>
    intro _ j
    simp only [List.range_zero, List.foldl_nil]
    rw [if_neg (by omega)]
  | succ n ih =>
    intro hn j
    rw [List.range_succ, List.foldl_append, List.foldl_cons, List.foldl_nil]
    have hglen :
        ((List.range n).foldl
            (fun acc i => xorUpd acc (i + 13) (i + 52)) l).length = 128 := by
      rw [length_foldl_inv _ (fun acc i => length_xorUpd acc (i + 13) (i + 52))]
      exact hl
    rw [getD_xorUpd, hglen, ih (by omega) (n + 13), ih (by omega) (n + 52),
      ih (by omega) j]
    split_ifs <;>
      first
        | rfl
        | omega
        | exact getD_congr l _ _ (by omega)
        | exact congrArg₂ (fun a b => a ^^^ b) (getD_congr l _ _ (by omega))
            (getD_congr l _ _ (by omega))

theorem foldXorHigh_getD (l : List Nat) (hl : l.length = 128) :
    ∀ n, n ≤ 64 → ∀ j,
      ((List.range n).foldl (fun acc i => xorUpd acc (i + 64) i) l).getD j 0 =
        if 64 ≤ j ∧ j < 64 + n then l.getD j 0 ^^^ l.getD (j - 64) 0
        else l.getD j 0 := by
  intro n
  induction n with
  | zero =>
    intro _ j
    simp only [List.range_zero, List.foldl_nil]
    rw [if_neg (by omega)]
  | succ n ih =>
    intro hn j
    rw [List.range_succ, List.foldl_append, List.foldl_cons, List.foldl_nil]
    have hglen :
        ((List.range n).foldl (fun acc i => xorUpd acc (i + 64) i) l).length
          = 128 := by
      rw [length_foldl_inv _ (fun acc i => length_xorUpd acc (i + 64) i)]
      exact hl
    rw [getD_xorUpd, hglen, ih (by omega) (n + 64), ih (by omega) n,
      ih (by omega) j]
    split_ifs <;>
      first
        | rfl
        | omega
        | exact getD_congr l _ _ (by omega)
        | exact congrArg₂ (fun a b => a ^^^ b) (getD_congr l _ _ (by omega))
            (getD_congr l _ _ (by omega))

theorem length_step1S (l : List Nat) : (step1S l).length = 128 := by
  simp [step1S]

theorem length_step2S (l : List Nat) : (step2S l).length = 128 := by
  simp [step2S]

theorem length_step3S (l : List Nat) : (step3S l).length = 128 := by
  simp [step3S]

theorem fold1_eq_step1S (l : List Nat) (hl : l.length = 128) :
    (List.range 4).foldl (fun acc i => swapIdx acc i (i + 77)) l = step1S l := by
  apply list_ext_getD
  · rw [length_foldl_inv _ (fun acc i => length_swapIdx acc i (i + 77)), hl,
      length_step1S]
  · intro j
    rw [foldSwap_getD l hl 4 (by omega) j, step1S, getD_range_map]
    split_ifs <;>
      first
        | rfl
        | omega
        | exact getD_out_of_range l _ (by omega)
        | exact getD_congr l _ _ (by omega)

theorem fold2_eq_step2S (l : List Nat) (hl : l.length = 128) :
    (List.range 64).foldl (fun acc i => xorUpd acc i (i + 64)) l = step2S l := by
  apply list_ext_getD
  · rw [length_foldl_inv _ (fun acc i => length_xorUpd acc i (i + 64)), hl,
      length_step2S]
  · intro j
    rw [foldXorLow_getD l hl 64 (by omega) j, step2S, getD_range_map]
    split_ifs <;>
      first
        | rfl
        | omega
        | exact getD_out_of_range l _ (by omega)
        | exact getD_congr l _ _ (by omega)

theorem fold3_eq_step3S (l : List Nat) (hl : l.length = 128) :
    (List.range 4).foldl (fun acc i => xorUpd acc (i + 13) (i + 52)) l
      = step3S l := by
  apply list_ext_getD
  · rw [length_foldl_inv _ (fun acc i => length_xorUpd acc (i + 13) (i + 52)),
      hl, length_step3S]
  · intro j
    rw [foldXorMid_getD l hl 4 (by omega) j, step3S, getD_range_map]
    split_ifs <;>
      first
        | rfl
        | omega
        | exact getD_out_of_range l _ (by omega)
        | exact getD_congr l _ _ (by omega)

theorem fold4_eq_step4S (l : List Nat) (hl : l.length = 128) :
    (List.range 64).foldl (fun acc i => xorUpd acc (i + 64) i) l
      = step4S l := by
  apply list_ext_getD
  · rw [length_foldl_inv _ (fun acc i => length_xorUpd acc (i + 64) i), hl,
      step4S, List.length_map, List.length_range]
  · intro j
    rw [foldXorHigh_getD l hl 64 (by omega) j, step4S, getD_range_map]
    split_ifs <;>
      first
        | rfl
        | omega
        | exact getD_out_of_range l _ (by omega)
        | exact getD_congr l _ _ (by omega)

/-- C4: on every 128-byte buffer, `scramble_modulus` is exactly the
staged composition of the four claimed steps — (1) swap `buf[i]` with
`buf[i+77]` for `i < 4`, (2) `buf[i] ^= buf[i+64]` for `i < 64`,
(3) `buf[i+13] ^= buf[i+52]` for `i < 4`, (4) `buf[i+64] ^= buf[i]` for
`i < 64` — where each step reads only the values produced by the
previous step (each `stepKS` is a simultaneous map over the pre-step
buffer), so the result is a fixed deterministic function of the input. -/
theorem c4_scramble_modulus_staged (l : List Nat) (hl : l.length = 128) :
    scramble_modulus l = scrambleModulusSpec l := by
  rw [scramble_modulus, scrambleModulusSpec]
  rw [fold1_eq_step1S l hl]
  rw [fold2_eq_step2S (step1S l) (length_step1S l)]
  rw [fold3_eq_step3S (step2S (step1S l)) (length_step2S (step1S l))]
  rw [fold4_eq_step4S (step3S (step2S (step1S l)))
    (length_step3S (step2S (step1S l)))]

/-- Witness for C4 at a concrete 128-byte buffer. -/
theorem c4_scramble_modulus_staged_witness :
    scramble_modulus (List.range 128) = scrambleModulusSpec (List.range 128) :=
  c4_scramble_modulus_staged (List.range 128) (by simp)

/-! ### The byte-order shim (`blowfish_compat`) -/

theorem swap4 (a b c d : Nat) (rest : List Nat) :
    swapIdx (swapIdx (a :: b :: c :: d :: rest) 0 3) 1 2 =
      d :: c :: b :: a :: rest := rfl

theorem compatPure_nil : compatPure [] = [] := rfl

theorem compatPure_cons4 (a b c d : Nat) (rest : List Nat) :
    compatPure (a :: b :: c :: d :: rest) = d :: c :: b :: a :: compatPure rest :=
  rfl

theorem length_compatPure (l : List Nat) : (compatPure l).length = l.length := by
  induction l using compatPure.induct with
  | case1 a b c d rest ih => simp [compatPure_cons4, ih]
  | case2 l h =>
    cases l with
    | nil => rfl
    | cons a t =>
      cases t with
      | nil => rfl
      | cons b t =>
        cases t with
        | nil => rfl
        | cons c t =>
          cases t with
          | nil => rfl
          | cons d t => exact absurd rfl (h a b c d t)

theorem compatPure_compatPure (l : List Nat) : compatPure (compatPure l) = l := by
  induction l using compatPure.induct with
  | case1 a b c d rest ih => simp [compatPure_cons4, ih]
  | case2 l h =>
    cases l with
    | nil => rfl
    | cons a t =>
      cases t with
      | nil => rfl
      | cons b t =>
        cases t with
        | nil => rfl
        | cons c t =>
          cases t with
          | nil => rfl
          | cons d t => exact absurd rfl (h a b c d t)

theorem compatBlocks_aligned (n : Nat) :
    ∀ (suf pre : List Nat), suf.length = 4 * n →
      compatBlocks (pre ++ suf) pre.length n = some (pre ++ compatPure suf) := by
  induction n with
  | zero =>
    intro suf pre h
    have : suf = [] := List.eq_nil_of_length_eq_zero (by omega)
    subst this
    rfl
  | succ n ih =>
    intro suf pre h
    match suf, h with
    | a :: b :: c :: d :: rest, h =>
      have hlen : rest.length = 4 * n := by
        simp only [List.length_cons] at h; omega
      have hcond : pre.length + 3 < (pre ++ a :: b :: c :: d :: rest).length := by
        simp [List.length_append]
      rw [compatBlocks]
      rw [if_pos hcond]
      rw [swapBlock_append]
      have e1 : pre ++ d :: c :: b :: a :: rest =
          (pre ++ [d, c, b, a]) ++ rest := by simp
      have e2 : pre.length + 4 = (pre ++ [d, c, b, a]).length := by simp
      rw [e1, e2, ih rest (pre ++ [d, c, b, a]) hlen]
      simp [compatPure_cons4]

theorem compatBlocks_misaligned (n : Nat) :
    ∀ (suf pre : List Nat), suf.length % 4 ≠ 0 → suf.length / 4 = n →
      compatBlocks (pre ++ suf) pre.length (n + 1) = none := by
  induction n with
  | zero =>
    intro suf pre hmod hdiv
    have h3 : suf.length < 4 := by omega
    have hcond : ¬ pre.length + 3 < (pre ++ suf).length := by
      simp only [List.length_append]; omega
    rw [compatBlocks, if_neg hcond]
  | succ n ih =>
    intro suf pre hmod hdiv
    have h4 : 4 ≤ suf.length := by omega
    match suf, h4 with
    | a :: b :: c :: d :: rest, _ =>
      simp only [List.length_cons] at hmod hdiv
      have hcond : pre.length + 3 < (pre ++ a :: b :: c :: d :: rest).length := by
        simp [List.length_append]
      rw [compatBlocks, if_pos hcond]
      rw [swapBlock_append]
      have e1 : pre ++ d :: c :: b :: a :: rest =
          (pre ++ [d, c, b, a]) ++ rest := by simp
      have e2 : pre.length + 4 = (pre ++ [d, c, b, a]).length := by simp
      rw [e1, e2, ih rest (pre ++ [d, c, b, a]) (by omega) (by omega)]

theorem blowfish_compat_aligned (l : List Nat) (h : l.length % 4 = 0) :
    blowfish_compat l = some (compatPure l) := by
  have hn : (l.length + 3) / 4 = l.length / 4 := by omega
  have hl : l.length = 4 * (l.length / 4) := by omega
  have := compatBlocks_aligned (l.length / 4) l [] hl
  simpa [blowfish_compat, hn] using this

theorem blowfish_compat_misaligned (l : List Nat) (h : l.length % 4 ≠ 0) :
    blowfish_compat l = none := by
  have hn : (l.length + 3) / 4 = l.length / 4 + 1 := by omega
  have := compatBlocks_misaligned (l.length / 4) l [] h rfl
  simpa [blowfish_compat, hn] using this

theorem blowfish_compat_some (l y : List Nat) (h : blowfish_compat l = some y) :
    l.length % 4 = 0 ∧ y = compatPure l := by
  by_cases hm : l.length % 4 = 0
  · refine ⟨hm, ?_⟩
    rw [blowfish_compat_aligned l hm] at h
    exact (Option.some_inj.mp h).symm
  · rw [blowfish_compat_misaligned l hm] at h
    exact absurd h (by simp)

/-- C5: for every buffer whose length is a multiple of 4, applying the
cipher shim (swap byte 0 with byte 3 and byte 1 with byte 2 within each
4-byte block) twice in succession restores the original buffer contents:
`shim (shim x) = x` (the shim succeeds both times, and the second
application returns the original buffer). -/
theorem c5_shim_self_inverse (buf : List Nat) (h : buf.length % 4 = 0) :
    (blowfish_compat buf).bind blowfish_compat = some buf := by
  rw [blowfish_compat_aligned buf h]
  show blowfish_compat (compatPure buf) = some buf
  rw [blowfish_compat_aligned (compatPure buf)
      (by rw [length_compatPure]; exact h),
    compatPure_compatPure]

/-- Witness for C5 at the concrete 8-byte buffer of the repository's own
`blowfish_compat` test. -/
theorem c5_shim_self_inverse_witness :
    (blowfish_compat [1, 2, 3, 4, 5, 6, 7, 8]).bind blowfish_compat =
      some [1, 2, 3, 4, 5, 6, 7, 8] :=
  c5_shim_self_inverse [1, 2, 3, 4, 5, 6, 7, 8] (by decide)

/-- C10: the cipher shim is total exactly on buffers whose length is a
multiple of 4: for those every accessed index is in bounds and the shim
succeeds, while for any length not a multiple of 4 (lengths 1 to 3
included) the final iteration accesses an index past the end of the
buffer, so the out-of-bounds branch (modelled by `none`, a `panic!` in
the source) is reached. -/
theorem c10_shim_bounds (buf : List Nat) :
    (buf.length % 4 = 0 → ∃ y, blowfish_compat buf = some y) ∧
    (buf.length % 4 ≠ 0 → blowfish_compat buf = none) :=
  ⟨fun h => ⟨compatPure buf, blowfish_compat_aligned buf h⟩,
   fun h => blowfish_compat_misaligned buf h⟩

/-- Witness for C10: a 4-byte buffer is processed in bounds; a 3-byte
buffer reaches the out-of-bounds branch. -/
theorem c10_shim_bounds_witness :
    (∃ y, blowfish_compat [1, 2, 3, 4] = some y) ∧
      blowfish_compat [1, 2, 3] = none :=
  ⟨(c10_shim_bounds [1, 2, 3, 4]).1 (by decide),
   (c10_shim_bounds [1, 2, 3]).2 (by decide)⟩

/-! ### Stream writes and the `Init`/`GGAuth` encodings -/

theorem length_i32LE (n : Nat) : (i32LE n).length = 4 := rfl

theorem take_append_plus (pre xs : List Nat) (k : Nat) :
    (pre ++ xs).take (pre.length + k) = pre ++ xs.take k := by
  induction pre with
  | nil => simp
  | cons a t ih => simpa [Nat.succ_add] using ih

theorem drop_append_plus (pre xs : List Nat) (k : Nat) :
    (pre ++ xs).drop (pre.length + k) = xs.drop k := by
  induction pre with
  | nil => simp
  | cons a t ih => simpa [Nat.succ_add] using ih

theorem take_replicate0 (k n : Nat) :
    (List.replicate n (0 : Nat)).take k = List.replicate (min k n) 0 := by
  induction n generalizing k with
  | zero => simp
  | succ n ih =>
    cases k with
    | zero => simp
    | succ k => simp [List.replicate_succ, ih, Nat.succ_min_succ]

theorem drop_replicate0 (k n : Nat) :
    (List.replicate n (0 : Nat)).drop k = List.replicate (n - k) 0 := by
  induction n generalizing k with
  | zero => simp
  | succ n ih =>
    cases k with
    | zero => simp
    | succ k => simp [List.replicate_succ, ih]

theorem writeB_shape (data pre rest bs : List Nat) (p : Nat)
    (hd : data = pre ++ rest) (hp : p = pre.length) :
    writeB ⟨data, p⟩ bs =
      ⟨(pre ++ bs) ++ rest.drop bs.length, p + bs.length⟩ := by
  subst hd hp
  simp only [writeB, writeAt, WStream.mk.injEq]
  refine ⟨?_, trivial⟩
  rw [show pre.length - (pre ++ rest).length = 0 by
        simp only [List.length_append]; omega,
    drop_append_plus pre rest bs.length]
  have ht : (pre ++ rest).take pre.length = pre := by
    have := take_append_plus pre rest 0
    simpa using this
  rw [ht]
  simp only [List.replicate_zero, List.nil_append, List.append_assoc]

theorem seekCur_shape (data pre rest : List Nat) (p n : Nat)
    (hd : data = pre ++ rest) (hp : p = pre.length) (h : n ≤ rest.length) :
    seekCur ⟨data, p⟩ n =
      ⟨(pre ++ rest.take n) ++ rest.drop n, p + n⟩ := by
  subst hd hp
  simp only [seekCur, WStream.mk.injEq]
  refine ⟨?_, trivial⟩
  rw [List.append_assoc, List.take_append_drop]

/-- Writing the four zero bytes of `i32LE 0` into an all-zero region
leaves the buffer unchanged (used for the zero checksum write). -/
theorem writeAt_zeros (P : List Nat) (r n k : Nat) (hn : n = P.length + k)
    (hle : k + 4 ≤ r) :
    writeAt (P ++ List.replicate r 0) n (i32LE 0) = P ++ List.replicate r 0 := by
  subst hn
  have hsub : P.length + k - (P ++ List.replicate r 0).length = 0 := by
    simp only [List.length_append, List.length_replicate]; omega
  have hmin : min k r = k := by omega
  simp only [writeAt, length_i32LE, take_append_plus, take_replicate0, hsub,
    hmin, List.replicate_zero, List.nil_append]
  rw [show P.length + k + 4 = P.length + (k + 4) by omega,
    drop_append_plus P _ (k + 4), drop_replicate0]
  rw [show i32LE 0 = List.replicate 4 0 from rfl]
  simp only [List.append_assoc, List.nil_append]
  rw [← List.replicate_add, ← List.replicate_add]
  congr 2
  omega

/-- Shape of the `Init` encoding into the zeroed 1024-byte packet
buffer. -/
theorem encode_init_eq (sid : Nat) (modulus key : List Nat)
    (hm : modulus.length = 128) (hk : key.length = 16) :
    encode (ServerMessage.init sid modulus key) ⟨List.replicate 1024 0, 0⟩ =
      ⟨[0] ++ i32LE sid ++ i32LE PROTOCOL_VERSION ++ scramble_modulus modulus ++
        List.replicate 16 0 ++ key ++ List.replicate 855 0, 169⟩ := by
  simp only [encode]
  have h1 : writeC ⟨List.replicate 1024 0, 0⟩ 0x00 =
      ⟨[0] ++ List.replicate 1023 0, 1⟩ := by
    rw [writeC, writeB_shape (List.replicate 1024 0) [] (List.replicate 1024 0)
      [0x00 % 256] 0 (List.nil_append _).symm rfl, drop_replicate0]
    rfl
  rw [h1]
  have h2 : writeD ⟨[0] ++ List.replicate 1023 0, 1⟩ sid =
      ⟨([0] ++ i32LE sid) ++ List.replicate 1019 0, 5⟩ := by
    rw [writeD, writeB_shape ([0] ++ List.replicate 1023 0) [0]
      (List.replicate 1023 0) (i32LE sid) 1 rfl rfl, length_i32LE,
      drop_replicate0]
  rw [h2]
  have h3 : writeD ⟨([0] ++ i32LE sid) ++ List.replicate 1019 0, 5⟩
        PROTOCOL_VERSION =
      ⟨(([0] ++ i32LE sid) ++ i32LE PROTOCOL_VERSION) ++ List.replicate 1015 0,
        9⟩ := by
    rw [writeD, writeB_shape (([0] ++ i32LE sid) ++ List.replicate 1019 0)
      ([0] ++ i32LE sid) (List.replicate 1019 0) (i32LE PROTOCOL_VERSION) 5
      rfl (by simp only [List.length_append, List.length_cons, List.length_nil,
        length_i32LE]), length_i32LE, drop_replicate0]
  rw [h3]
  have hlen9 : (9 : Nat) =
      (([0] ++ i32LE sid) ++ i32LE PROTOCOL_VERSION).length := by
    simp only [List.length_append, List.length_cons, List.length_nil,
      length_i32LE]
  have h4 : writeB
        ⟨(([0] ++ i32LE sid) ++ i32LE PROTOCOL_VERSION) ++
          List.replicate 1015 0, 9⟩ (scramble_modulus modulus) =
      ⟨((([0] ++ i32LE sid) ++ i32LE PROTOCOL_VERSION) ++
          scramble_modulus modulus) ++ List.replicate 887 0, 137⟩ := by
    rw [writeB_shape ((([0] ++ i32LE sid) ++ i32LE PROTOCOL_VERSION) ++
        List.replicate 1015 0)
      (([0] ++ i32LE sid) ++ i32LE PROTOCOL_VERSION) (List.replicate 1015 0)
      (scramble_modulus modulus) 9 rfl hlen9, length_scramble_modulus, hm,
      drop_replicate0]
  rw [h4]
  have hlen137 : (137 : Nat) =
      ((([0] ++ i32LE sid) ++ i32LE PROTOCOL_VERSION) ++
        scramble_modulus modulus).length := by
    simp only [List.length_append, List.length_cons, List.length_nil,
      length_i32LE, length_scramble_modulus, hm]
  have h5 : seekCur
        ⟨((([0] ++ i32LE sid) ++ i32LE PROTOCOL_VERSION) ++
            scramble_modulus modulus) ++ List.replicate 887 0, 137⟩ 16 =
      ⟨(((([0] ++ i32LE sid) ++ i32LE PROTOCOL_VERSION) ++
          scramble_modulus modulus) ++ List.replicate 16 0) ++
        List.replicate 871 0, 153⟩ := by
    rw [seekCur_shape _ ((([0] ++ i32LE sid) ++ i32LE PROTOCOL_VERSION) ++
        scramble_modulus modulus) (List.replicate 887 0) 137 16 rfl hlen137
      (by rw [List.length_replicate]; omega)]
    rw [take_replicate0, drop_replicate0]
    rfl
  rw [h5]
  have hlen153 : (153 : Nat) =
      ((((([0] ++ i32LE sid) ++ i32LE PROTOCOL_VERSION) ++
        scramble_modulus modulus)) ++ List.replicate 16 0).length := by
    simp only [List.length_append, List.length_cons, List.length_nil,
      length_i32LE, length_scramble_modulus, List.length_replicate, hm]
  have h6 : writeB
        ⟨(((([0] ++ i32LE sid) ++ i32LE PROTOCOL_VERSION) ++
            scramble_modulus modulus) ++ List.replicate 16 0) ++
          List.replicate 871 0, 153⟩ key =
      ⟨((((([0] ++ i32LE sid) ++ i32LE PROTOCOL_VERSION) ++
          scramble_modulus modulus) ++ List.replicate 16 0) ++ key) ++
        List.replicate 855 0, 169⟩ := by
    rw [writeB_shape _ (((([0] ++ i32LE sid) ++ i32LE PROTOCOL_VERSION) ++
        scramble_modulus modulus) ++ List.replicate 16 0) (List.replicate 871 0)
      key 153 rfl hlen153, hk, drop_replicate0]
  rw [h6]

/-- Shape of the `GGAuth` encoding into the zeroed 1024-byte packet
buffer (the 16 reserved bytes are only seeked over). -/
theorem encode_gg_eq (r : GGAuthResult) :
    encode (ServerMessage.ggAuth r) ⟨List.replicate 1024 0, 0⟩ =
      ⟨[11] ++ i32LE r.toNat ++ List.replicate 1019 0, 21⟩ := by
  simp only [encode]
  have h1 : writeC ⟨List.replicate 1024 0, 0⟩ 0x0b =
      ⟨[11] ++ List.replicate 1023 0, 1⟩ := by
    rw [writeC, writeB_shape (List.replicate 1024 0) [] (List.replicate 1024 0)
      [0x0b % 256] 0 (List.nil_append _).symm rfl, drop_replicate0]
    rfl
  rw [h1]
  have h2 : writeD ⟨[11] ++ List.replicate 1023 0, 1⟩ r.toNat =
      ⟨([11] ++ i32LE r.toNat) ++ List.replicate 1019 0, 5⟩ := by
    rw [writeD, writeB_shape ([11] ++ List.replicate 1023 0) [11]
      (List.replicate 1023 0) (i32LE r.toNat) 1 rfl rfl, length_i32LE,
      drop_replicate0]
  rw [h2]
  rw [seekCur_shape _ ([11] ++ i32LE r.toNat) (List.replicate 1019 0) 5 16
    rfl (by simp only [List.length_append, List.length_cons, List.length_nil,
      length_i32LE]) (by rw [List.length_replicate]; omega)]
  rw [take_replicate0, drop_replicate0]
  simp only [List.append_assoc]
  rw [show min 16 1019 = 16 from rfl, ← List.replicate_add]

/-- C2: encoding an `Init` message into the zero-initialized 1024-byte
stream ends at position 169 and writes exactly the claimed layout:
tag byte `0x00`, the 4-byte little-endian session id, the 4-byte
little-endian protocol version `0xC621`, `modulus_scramble` applied to a
copy of the 128-byte modulus, 16 reserved bytes left zero, and the
16-byte traffic key; the remaining 855 buffer bytes stay zero.  The
message's `modulus` value appears on the right only under
`scramble_modulus` applied to it as a pure function: the caller's
modulus itself is not mutated (the source scrambles the by-value copy
inside the consumed message). -/
theorem c2_encode_init_layout (sid : Nat) (modulus key : List Nat)
    (hm : modulus.length = 128) (hk : key.length = 16) :
    (encode (ServerMessage.init sid modulus key)
        ⟨List.replicate 1024 0, 0⟩).pos = 169 ∧
    (encode (ServerMessage.init sid modulus key)
        ⟨List.replicate 1024 0, 0⟩).data =
      [0] ++ i32LE sid ++ i32LE 0xC621 ++ scramble_modulus modulus ++
        List.replicate 16 0 ++ key ++ List.replicate 855 0 := by
  rw [encode_init_eq sid modulus key hm hk]
  exact ⟨rfl, rfl⟩

/-- Witness for C2 at the `Init` message of the repository's
`server_init` test (session id `0xdeadbee f` pattern, the golden modulus
replaced by a simple concrete 128-byte value, concrete 16-byte key). -/
theorem c2_encode_init_layout_witness :
    (encode (ServerMessage.init 3735928559 (List.range 128)
        (List.range 16)) ⟨List.replicate 1024 0, 0⟩).pos = 169 ∧
    (encode (ServerMessage.init 3735928559 (List.range 128)
        (List.range 16)) ⟨List.replicate 1024 0, 0⟩).data =
      [0] ++ i32LE 3735928559 ++ i32LE 0xC621 ++
        scramble_modulus (List.range 128) ++ List.replicate 16 0 ++
        List.range 16 ++ List.replicate 855 0 :=
  c2_encode_init_layout 3735928559 (List.range 128) (List.range 16)
    (by simp) (by simp)

/-! ### The running-key scramble (`scramble_init`) -/

theorem length_writeBlockLE (l : List Nat) (off v : Nat) :
    (writeBlockLE l off v).length = l.length := by
  simp [writeBlockLE]

theorem getD_writeBlockLE (l : List Nat) (off v j : Nat)
    (h : off + 4 ≤ l.length) :
    (writeBlockLE l off v).getD j 0 =
      if j = off then v % 256
      else if j = off + 1 then v / 256 % 256
      else if j = off + 2 then v / 65536 % 256
      else if j = off + 3 then v / 16777216 % 256
      else l.getD j 0 := by
  simp only [writeBlockLE, getD_set, List.length_set]
  split_ifs <;> first | rfl | omega

theorem getD_writeBlockLE_out (l : List Nat) (off v j : Nat)
    (h : off + 4 ≤ l.length) (hj : j < off ∨ off + 4 ≤ j) :
    (writeBlockLE l off v).getD j 0 = l.getD j 0 := by
  rw [getD_writeBlockLE l off v j h]
  split_ifs <;> first | omega | rfl

theorem readBlockLE_congr (l₁ l₂ : List Nat) (off : Nat)
    (h : ∀ j, off ≤ j → j < off + 4 → l₁.getD j 0 = l₂.getD j 0) :
    readBlockLE l₁ off = readBlockLE l₂ off := by
  simp only [readBlockLE]
  rw [h off (by omega) (by omega), h (off + 1) (by omega) (by omega),
    h (off + 2) (by omega) (by omega), h (off + 3) (by omega) (by omega)]

theorem readBlockLE_idx (l : List Nat) (i j : Nat) (h : i = j) :
    readBlockLE l i = readBlockLE l j := by rw [h]

theorem readBlockLE_writeBlockLE (l : List Nat) (off v : Nat)
    (h : off + 4 ≤ l.length) :
    readBlockLE (writeBlockLE l off v) off = v % 4294967296 := by
  simp only [readBlockLE, getD_writeBlockLE l off v _ h]
  split_ifs <;> omega

theorem readBlockLE_lt (l : List Nat) (off : Nat)
    (hb : ∀ j, l.getD j 0 < 256) :
    readBlockLE l off < 4294967296 := by
  have h0 := hb off
  have h1 := hb (off + 1)
  have h2 := hb (off + 2)
  have h3 := hb (off + 3)
  simp only [readBlockLE]
  omega

theorem getD_lt_of_all (l : List Nat) (h : ∀ x ∈ l, x < 256) (j : Nat) :
    l.getD j 0 < 256 := by
  by_cases hj : j < l.length
  · rw [List.getD_eq_getElem?_getD, List.getElem?_eq_getElem hj]
    exact h _ (List.getElem_mem hj)
  · rw [getD_out_of_range l j (by omega)]
    omega

theorem blockSum_congr (l₁ l₂ : List Nat) :
    ∀ (n off : Nat),
      (∀ j, off ≤ j → j < off + 4 * n → l₁.getD j 0 = l₂.getD j 0) →
      blockSum l₁ off n = blockSum l₂ off n := by
  intro n
  induction n with
  | zero => intro off _; rfl
  | succ n ih =>
    intro off h
    simp only [blockSum]
    rw [readBlockLE_congr l₁ l₂ off (fun j hj1 hj2 => h j hj1 (by omega)),
      ih (off + 4) (fun j hj1 hj2 => h j (by omega) (by omega))]

theorem getD_block_byte (l : List Nat) (off r : Nat) (hr : r < 4)
    (hb : ∀ j, l.getD j 0 < 256) :
    l.getD (off + r) 0 = readBlockLE l off / 256 ^ r % 256 := by
  have h0 := hb off
  have h1 := hb (off + 1)
  have h2 := hb (off + 2)
  have h3 := hb (off + 3)
  interval_cases r
  · rw [Nat.add_zero, pow_zero, Nat.div_one]
    simp only [readBlockLE]
    omega
  · rw [pow_one]
    simp only [readBlockLE]
    omega
  · rw [show (256 : Nat) ^ 2 = 65536 by norm_num]
    simp only [readBlockLE]
    omega
  · rw [show (256 : Nat) ^ 3 = 16777216 by norm_num]
    simp only [readBlockLE]
    omega

theorem scrambleBlocks_succ (buf : List Nat) (key off n : Nat)
    (h : off + 4 ≤ buf.length) :
    scrambleBlocks buf key off (Nat.succ n) =
      scrambleBlocks
        (writeBlockLE buf off
          (readBlockLE buf off ^^^ ((key + readBlockLE buf off) % 4294967296)))
        ((key + readBlockLE buf off) % 4294967296) (off + 4) n := by
  rw [scrambleBlocks]
  simp only [if_pos h]

/-- Success and length preservation of the scramble loop under the
in-bounds precondition alone (no byte-value hypotheses needed). -/
theorem scrambleBlocks_some (n : Nat) :
    ∀ (buf : List Nat) (key off : Nat), off + 4 * n ≤ buf.length →
      ∃ out fk, scrambleBlocks buf key off n = some (out, fk) ∧
        out.length = buf.length := by
  induction n with
  | zero => intro buf key off _; exact ⟨buf, key, rfl, rfl⟩
  | succ n ih =>
    intro buf key off h
    have hc : off + 4 ≤ buf.length := by omega
    rw [scrambleBlocks_succ buf key off n hc]
    obtain ⟨out, fk, heq, hlen⟩ := ih
      (writeBlockLE buf off
        (readBlockLE buf off ^^^ ((key + readBlockLE buf off) % 4294967296)))
      ((key + readBlockLE buf off) % 4294967296) (off + 4)
      (by rw [length_writeBlockLE]; omega)
    exact ⟨out, fk, heq, by rw [hlen, length_writeBlockLE]⟩

/-- The full invariant of the scramble loop: the final running key is the
wrapping sum of the initial key with every original block value; bytes
before `off` and from `off + 4 * n` on are untouched; the `t`-th block is
the original block XORed with the running key right after that block was
added; bytes stay bytes. -/
theorem scrambleBlocks_spec (n : Nat) :
    ∀ (buf : List Nat) (key off : Nat),
      off + 4 * n ≤ buf.length → key < 4294967296 →
      (∀ j, buf.getD j 0 < 256) →
      ∃ out, scrambleBlocks buf key off n =
          some (out, (key + blockSum buf off n) % 4294967296) ∧
        out.length = buf.length ∧
        (∀ j, j < off → out.getD j 0 = buf.getD j 0) ∧
        (∀ j, off + 4 * n ≤ j → out.getD j 0 = buf.getD j 0) ∧
        (∀ t, t < n → readBlockLE out (off + 4 * t) =
          readBlockLE buf (off + 4 * t) ^^^
            ((key + blockSum buf off (t + 1)) % 4294967296)) ∧
        (∀ j, out.getD j 0 < 256) := by
  induction n with
  | zero =>
    intro buf key off _ hkey hb
    refine ⟨buf, ?_, rfl, fun j _ => rfl, fun j _ => rfl,
      fun t ht => absurd ht (by omega), hb⟩
    rw [show blockSum buf off 0 = 0 from rfl, Nat.add_zero,
      Nat.mod_eq_of_lt hkey]
    rfl
  | succ n ih =>
    intro buf key off h hkey hb
    have hc : off + 4 ≤ buf.length := by omega
    set b := readBlockLE buf off with hbdef
    have hblt : b < 4294967296 := readBlockLE_lt buf off hb
    set key' := (key + b) % 4294967296 with hkeydef
    have hkeylt : key' < 4294967296 := Nat.mod_lt _ (by omega)
    set buf' := writeBlockLE buf off (b ^^^ key') with hbufdef
    have hlen' : buf'.length = buf.length := length_writeBlockLE buf off _
    have hb' : ∀ j, buf'.getD j 0 < 256 := by
      intro j
      rw [hbufdef, getD_writeBlockLE buf off _ j hc]
      split_ifs <;> first | omega | exact hb j
    have hagree : ∀ j, off + 4 ≤ j → buf'.getD j 0 = buf.getD j 0 :=
      fun j hj => getD_writeBlockLE_out buf off _ j hc (Or.inr hj)
    have hagree2 : ∀ j, j < off → buf'.getD j 0 = buf.getD j 0 :=
      fun j hj => getD_writeBlockLE_out buf off _ j hc (Or.inl hj)
    obtain ⟨out, heq, hlen, hhead, htail, hblocks, hbytes⟩ :=
      ih buf' key' (off + 4) (by rw [hlen']; omega) hkeylt hb'
    have hsum : blockSum buf' (off + 4) n = blockSum buf (off + 4) n :=
      blockSum_congr buf' buf n (off + 4) (fun j hj1 _ => hagree j hj1)
    refine ⟨out, ?_, by rw [hlen, hlen'], ?_, ?_, ?_, hbytes⟩
    · rw [scrambleBlocks_succ buf key off n hc, ← hbdef, ← hkeydef, ← hbufdef,
        heq, hsum]
      have : (key' + blockSum buf (off + 4) n) % 4294967296 =
          (key + blockSum buf off (Nat.succ n)) % 4294967296 := by
        rw [hkeydef, Nat.mod_add_mod,
          show blockSum buf off (Nat.succ n) =
            readBlockLE buf off + blockSum buf (off + 4) n from rfl,
          ← hbdef, Nat.add_assoc]
      rw [this]
    · intro j hj
      rw [hhead j (by omega), hagree2 j hj]
    · intro j hj
      rw [htail j (by omega), hagree j (by omega)]
    · intro t ht
      cases t with
      | zero =>
        have hout4 : ∀ j, off ≤ j → j < off + 4 →
            out.getD j 0 = buf'.getD j 0 :=
          fun j _ hj2 => hhead j hj2
        rw [show off + 4 * 0 = off by omega,
          readBlockLE_congr out buf' off hout4, hbufdef,
          readBlockLE_writeBlockLE buf off _ hc]
        have hxlt : b ^^^ key' < 4294967296 := by
          have h32 : (4294967296 : Nat) = 2 ^ 32 := by norm_num
          rw [h32] at hblt hkeylt ⊢
          exact Nat.xor_lt_two_pow hblt hkeylt
        rw [Nat.mod_eq_of_lt hxlt]
        rw [show blockSum buf off (0 + 1) = readBlockLE buf off + 0 from rfl]
        rw [← hbdef, Nat.add_zero]
      | succ t =>
        have hidx : off + 4 * Nat.succ t = (off + 4) + 4 * t := by omega
        rw [readBlockLE_idx out _ _ hidx, readBlockLE_idx buf _ _ hidx,
          hblocks t (by omega),
          readBlockLE_congr buf' buf ((off + 4) + 4 * t)
            (fun j hj1 _ => hagree j (by omega))]
        have : (key' + blockSum buf' (off + 4) (t + 1)) % 4294967296 =
            (key + blockSum buf off (Nat.succ t + 1)) % 4294967296 := by
          rw [blockSum_congr buf' buf (t + 1) (off + 4)
              (fun j hj1 _ => hagree j hj1),
            hkeydef, Nat.mod_add_mod,
            show blockSum buf off (Nat.succ t + 1) =
              readBlockLE buf off + blockSum buf (off + 4) (t + 1) from rfl,
            ← hbdef, Nat.add_assoc]
        rw [this]

/-- C3 (amended with `4 ≤ plain_size`): for every buffer, every
`plain_size` that is a positive multiple of 4 with
`plain_size + 4 ≤ buffer.length`, and every 32-bit key,
`scramble_init` succeeds and returns exactly the buffer described by the
claim (`initSpec`): each 4-byte little-endian block at offsets
`4, 8, ..., plain_size - 4` is replaced by `b XOR k` with `k` the
running key after wrapping-adding the original value of `b`; the first
4-byte block is untouched; the trailing block written at offset
`plain_size` is the wrapping sum of the initial key with all original
block values in `[4, plain_size)`; everything else is untouched. -/
theorem c3_running_key_scramble (buffer : List Nat) (size key : Nat)
    (hmod : size % 4 = 0) (hpos : 4 ≤ size)
    (hlen : size + 4 ≤ buffer.length) (hkey : key < 4294967296)
    (hb : ∀ x ∈ buffer, x < 256) :
    scramble_init buffer size key = some (initSpec buffer size key) := by
  have hbd : ∀ j, buffer.getD j 0 < 256 := getD_lt_of_all buffer hb
  have hcount : (size - 4 + 3) / 4 = size / 4 - 1 := by omega
  obtain ⟨out, heq, hlenout, hhead, htail, hblocks, hbytes⟩ :=
    scrambleBlocks_spec (size / 4 - 1) buffer key 4 (by omega) hkey hbd
  unfold scramble_init
  rw [hcount, heq]
  show (if size + 4 ≤ out.length then
      some (writeBlockLE out size
        ((key + blockSum buffer 4 (size / 4 - 1)) % 4294967296))
    else none) = some (initSpec buffer size key)
  rw [if_pos (by rw [hlenout]; omega)]
  refine congrArg some ?_
  apply list_ext_getD
  · rw [length_writeBlockLE, hlenout, initSpec, List.length_map,
      List.length_range]
  · intro j
    rw [getD_writeBlockLE out size _ j (by rw [hlenout]; omega),
      initSpec, getD_range_map]
    by_cases hjlen : j < buffer.length
    · rw [if_pos hjlen]
      rw [initSpecByte]
      by_cases hj4 : j < 4
      · rw [if_neg (by omega), if_neg (by omega), if_neg (by omega),
          if_neg (by omega), if_pos hj4]
        exact hhead j (by omega)
      · by_cases hjsz : j < size
        · rw [if_neg (by omega), if_neg (by omega), if_neg (by omega),
            if_neg (by omega), if_neg hj4, if_pos hjsz]
          have hj' : j = 4 * (j / 4) + j % 4 := by omega
          rw [show out.getD j 0 = out.getD (4 * (j / 4) + j % 4) 0 by
            rw [← hj']]
          rw [getD_block_byte out (4 * (j / 4)) (j % 4) (by omega) hbytes]
          have ht : j / 4 - 1 < size / 4 - 1 := by omega
          have hidx : 4 + 4 * (j / 4 - 1) = 4 * (j / 4) := by omega
          have hbl := hblocks (j / 4 - 1) ht
          rw [readBlockLE_idx out _ _ hidx, readBlockLE_idx buffer _ _ hidx,
            show j / 4 - 1 + 1 = j / 4 by omega] at hbl
          rw [hbl]
        · by_cases hjtr : j < size + 4
          · rw [if_neg hj4, if_neg hjsz, if_pos hjtr]
            rcases (show j = size ∨ j = size + 1 ∨ j = size + 2 ∨
                j = size + 3 by omega) with h | h | h | h
            · rw [if_pos h, show j - size = 0 by omega, pow_zero, Nat.div_one]
            · rw [if_neg (by omega), if_pos h,
                show j - size = 1 by omega, pow_one]
            · rw [if_neg (by omega), if_neg (by omega), if_pos h,
                show j - size = 2 by omega,
                show (256 : Nat) ^ 2 = 65536 by norm_num]
            · rw [if_neg (by omega), if_neg (by omega), if_neg (by omega),
                if_pos h, show j - size = 3 by omega,
                show (256 : Nat) ^ 3 = 16777216 by norm_num]
          · rw [if_neg (by omega), if_neg (by omega), if_neg (by omega),
              if_neg (by omega), if_neg hj4, if_neg hjsz, if_neg hjtr]
            exact htail j (by omega)
    · rw [if_neg hjlen, if_neg (by omega), if_neg (by omega),
        if_neg (by omega), if_neg (by omega)]
      exact getD_out_of_range out j (by rw [hlenout]; omega)

/-- Counterexample to C3 as stated: the claim admits `plain_size = 0`
(it is a multiple of 4 and `0 + 4 ≤ 4`), but there the trailing key
block is written at offset 0, so the first 4-byte block is *not* left
untouched: on buffer `[1,0,0,0]` with key 5 the byte at index 0 becomes
5 instead of staying 1. -/
theorem c3_counterexample :
    (0 % 4 = 0 ∧ 0 + 4 ≤ ([1, 0, 0, 0] : List Nat).length ∧ (5 : Nat) < 4294967296 ∧
      ∀ x ∈ ([1, 0, 0, 0] : List Nat), x < 256) ∧
    scramble_init [1, 0, 0, 0] 0 5 = some [5, 0, 0, 0] ∧
    ¬ ([5, 0, 0, 0] : List Nat).getD 0 0 = ([1, 0, 0, 0] : List Nat).getD 0 0 := by
  refine ⟨⟨rfl, by decide, by decide, by decide⟩, ?_, by decide⟩
  decide

/-- Witness for the amended C3 at the concrete vector of the
repository's `scramble_init_success` test. -/
theorem c3_running_key_scramble_witness :
    scramble_init [1, 2, 3, 4, 5, 6, 7, 8, 0, 0, 0, 0] 8 3735928559 =
      some (initSpec [1, 2, 3, 4, 5, 6, 7, 8, 0, 0, 0, 0] 8 3735928559) :=
  c3_running_key_scramble [1, 2, 3, 4, 5, 6, 7, 8, 0, 0, 0, 0] 8 3735928559
    (by decide) (by decide) (by decide) (by decide) (by decide)

/-! ### Decoding the inbound request (`decode`) -/

/-- C8: decode reads exactly one tag byte: on `0x07` it returns
`AuthGameGuard` and consumes no further bytes (the entire rest of the
input is handed back untouched); on any other byte it returns the
malformed-input (`InvalidData`) error carrying that offending byte. -/
theorem c8_decode_tag (b : Nat) (rest : List Nat) :
    (b = 0x07 →
      decode (b :: rest) = Except.ok (ClientMessage.authGameGuard, rest)) ∧
    (b ≠ 0x07 →
      decode (b :: rest) = Except.error (DecodeError.invalidPacketId b)) := by
  constructor
  · intro h; simp [decode, h]
  · intro h; simp [decode, h]

/-- Witness for C8 at the decode vectors of the repository's tests:
tag `0x07` with trailing payload bytes, and the invalid tag `0xff`. -/
theorem c8_decode_tag_witness :
    decode [7, 0x25, 0xc7] = Except.ok (ClientMessage.authGameGuard, [0x25, 0xc7]) ∧
      decode [0xff] = Except.error (DecodeError.invalidPacketId 0xff) :=
  ⟨(c8_decode_tag 7 [0x25, 0xc7]).1 rfl, (c8_decode_tag 0xff []).2 (by decide)⟩

/-! ### The packet sender: transport and pipeline lemmas -/

theorem twrite_true (t : Transport) (bs : List Nat) (t' : Transport)
    (h : twrite t bs = (true, t')) :
    t' = ⟨t.cap, t.written ++ bs, t.flushOk⟩ ∧
      t.written.length + bs.length ≤ t.cap := by
  unfold twrite at h
  split_ifs at h with hc
  · exact ⟨(congrArg Prod.snd h).symm, hc⟩
  · simp only [Prod.mk.injEq] at h
    exact absurd h.1 (by simp)

theorem twrite_false (t : Transport) (bs : List Nat) (t' : Transport)
    (h : twrite t bs = (false, t')) :
    t' = ⟨t.cap, t.written ++ bs.take (t.cap - t.written.length),
        t.flushOk⟩ ∧
      t.cap < t.written.length + bs.length := by
  unfold twrite at h
  split_ifs at h with hc
  · simp only [Prod.mk.injEq] at h
    exact absurd h.1 (by simp)
  · exact ⟨(congrArg Prod.snd h).symm, by omega⟩

/-- Success and length preservation of `scramble_init` from the bounds
alone. -/
theorem scramble_init_some (buffer : List Nat) (size key : Nat)
    (hmod : size % 4 = 0) (hpos : 4 ≤ size)
    (hlen : size + 4 ≤ buffer.length) :
    ∃ out, scramble_init buffer size key = some out ∧
      out.length = buffer.length := by
  have hcount : (size - 4 + 3) / 4 = size / 4 - 1 := by omega
  obtain ⟨out, fk, heq, hl⟩ :=
    scrambleBlocks_some (size / 4 - 1) buffer key 4 (by omega)
  refine ⟨writeBlockLE out size fk, ?_, by rw [length_writeBlockLE, hl]⟩
  unfold scramble_init
  rw [hcount, heq]
  show (if size + 4 ≤ out.length then some (writeBlockLE out size fk)
      else none) = some (writeBlockLE out size fk)
  rw [if_pos (by omega)]

/-- Full characterization of the pre-lock pipeline for a `GGAuth`
message: encoded size 21, padded to 24, zero checksum to 28, no
running-key scramble, shim over the first 28 bytes, final size padded to
the 8-byte cipher block, 32. -/
theorem prepare_gg_eq (randKey : Nat) (r : GGAuthResult) :
    prepare randKey (ServerMessage.ggAuth r) =
      Except.ok
        (compatPure ([11] ++ i32LE r.toNat ++ List.replicate 23 0) ++
          List.replicate 996 0, 32) := by
  have hlen5 : (24 : Nat) = ([11] ++ i32LE r.toNat).length + 19 := by
    simp [length_i32LE]
  have hp1 : pad 21 4 = Except.ok 24 := rfl
  have hwz : writeAt ([11] ++ i32LE r.toNat ++ List.replicate 1019 0) 24
      (i32LE 0) = [11] ++ i32LE r.toNat ++ List.replicate 1019 0 := by
    exact writeAt_zeros ([11] ++ i32LE r.toNat) 1019 24 19 hlen5 (by omega)
  have hp2 : pad 28 4 = Except.ok 28 := rfl
  have hlen28 : (28 : Nat) = ([11] ++ i32LE r.toNat).length + 23 := by
    simp [length_i32LE]
  have htake : ([11] ++ i32LE r.toNat ++ List.replicate 1019 0).take 28 =
      [11] ++ i32LE r.toNat ++ List.replicate 23 0 := by
    rw [hlen28, take_append_plus, take_replicate0,
      show min 23 1019 = 23 from rfl]
  have hcompat : blowfish_compat ([11] ++ i32LE r.toNat ++
        List.replicate 23 0) =
      some (compatPure ([11] ++ i32LE r.toNat ++ List.replicate 23 0)) := by
    apply blowfish_compat_aligned
    simp [length_i32LE]
  have hdrop : ([11] ++ i32LE r.toNat ++ List.replicate 1019 0).drop 28 =
      List.replicate 996 0 := by
    rw [hlen28, drop_append_plus, drop_replicate0]
  have hp3 : pad 28 8 = Except.ok 32 := rfl
  simp only [prepare, encode_gg_eq, hp1, hwz, hp2, htake, hcompat, hdrop, hp3]

/-- Shape of the pre-lock pipeline for an `Init` message: encoded size
169, padded to 172, zero checksum to 176, running-key scramble over 176
bytes plus its 4-byte trailer to 180, shim over the first 180 bytes,
padded to the 8-byte cipher block, 184.  The packet stays 1024 bytes
long. -/
theorem prepare_init_eq (randKey sid : Nat) (m k : List Nat)
    (hm : m.length = 128) (hk : k.length = 16) :
    ∃ p, prepare randKey (ServerMessage.init sid m k) =
        Except.ok (p, 184) ∧ p.length = 1024 := by
  have hPlen : ([0] ++ i32LE sid ++ i32LE PROTOCOL_VERSION ++
      scramble_modulus m ++ List.replicate 16 0 ++ k).length = 169 := by
    simp [length_i32LE, length_scramble_modulus, hm, hk]
  have hDlen : ([0] ++ i32LE sid ++ i32LE PROTOCOL_VERSION ++
      scramble_modulus m ++ List.replicate 16 0 ++ k ++
      List.replicate 855 0).length = 1024 := by
    simp only [List.length_append, List.length_cons, List.length_nil,
      length_i32LE, length_scramble_modulus, List.length_replicate, hm, hk]
  have hp1 : pad 169 4 = Except.ok 172 := rfl
  have hwz : writeAt ([0] ++ i32LE sid ++ i32LE PROTOCOL_VERSION ++
      scramble_modulus m ++ List.replicate 16 0 ++ k ++
      List.replicate 855 0) 172 (i32LE 0) =
      [0] ++ i32LE sid ++ i32LE PROTOCOL_VERSION ++ scramble_modulus m ++
        List.replicate 16 0 ++ k ++ List.replicate 855 0 :=
    writeAt_zeros ([0] ++ i32LE sid ++ i32LE PROTOCOL_VERSION ++
      scramble_modulus m ++ List.replicate 16 0 ++ k) 855 172 3
      (by rw [hPlen]) (by omega)
  have hp2 : pad 176 4 = Except.ok 176 := rfl
  obtain ⟨q, hscr, hqlen⟩ := scramble_init_some
    ([0] ++ i32LE sid ++ i32LE PROTOCOL_VERSION ++ scramble_modulus m ++
      List.replicate 16 0 ++ k ++ List.replicate 855 0) 176 randKey
    (by omega) (by omega) (by rw [hDlen]; omega)
  rw [hDlen] at hqlen
  have hp3 : pad 180 4 = Except.ok 180 := rfl
  have hcompat : blowfish_compat (q.take 180) =
      some (compatPure (q.take 180)) := by
    apply blowfish_compat_aligned
    rw [List.length_take, hqlen]
    decide
  have hp4 : pad 180 8 = Except.ok 184 := rfl
  refine ⟨compatPure (q.take 180) ++ q.drop 180, ?_, ?_⟩
  · simp only [prepare, encode_init_eq sid m k hm hk, hp1, hwz, hp2, hscr,
      hp3, hcompat, hp4]
  · rw [List.length_append, length_compatPure, List.length_take,
      List.length_drop, hqlen]
    omega

/-- Packet length and size bounds of a successful `prepare` on a
well-formed message. -/
theorem prepare_ok_bounds (randKey : Nat) (msg : ServerMessage)
    (hwf : wfMessage msg) (packet : List Nat) (size : Nat)
    (h : prepare randKey msg = Except.ok (packet, size)) :
    packet.length = 1024 ∧ size < 1024 := by
  cases msg with
  | ggAuth g =>
    rw [prepare_gg_eq randKey g] at h
    simp only [Except.ok.injEq, Prod.mk.injEq] at h
    obtain ⟨hp, hsz⟩ := h
    constructor
    · rw [← hp, List.length_append, length_compatPure]
      simp only [List.length_append, List.length_cons, List.length_nil,
        length_i32LE, List.length_replicate]
    · omega
  | init sid m k =>
    obtain ⟨hm, hk⟩ := hwf
    obtain ⟨p, hpe, hplen⟩ := prepare_init_eq randKey sid m k hm hk
    rw [hpe] at h
    simp only [Except.ok.injEq, Prod.mk.injEq] at h
    obtain ⟨hp, hsz⟩ := h
    exact ⟨hp ▸ hplen, by omega⟩

theorem send_eq_error (E : List Nat → List Nat → List Nat) (r : Nat)
    (st : CryptState) (t : Transport) (msg : ServerMessage) (e : SendError)
    (h : prepare r msg = Except.error e) :
    send E r st t msg = ⟨some e, st, t⟩ := by
  unfold send
  rw [h]

theorem send_eq_ok (E : List Nat → List Nat → List Nat) (r : Nat)
    (st : CryptState) (t : Transport) (msg : ServerMessage)
    (packet : List Nat) (size : Nat)
    (h : prepare r msg = Except.ok (packet, size)) :
    send E r st t msg = sendBody E st t msg packet size := by
  unfold send
  rw [h]

/-- On success, `send` appends exactly one frame to the transport —
the 2-byte header followed by the shimmed encryption (under the
*pre-call* encrypt key) of the prepared plaintext — and the crypto state
after the call is the pre-call state re-keyed with the traffic key for
`Init`, unchanged for `GGAuth`. -/
theorem send_shape (E : List Nat → List Nat → List Nat) (r : Nat)
    (st : CryptState) (t : Transport) (msg : ServerMessage)
    (hs : (send E r st t msg).res = none) :
    ∃ packet size, prepare r msg = Except.ok (packet, size) ∧
      (send E r st t msg).transport.written =
        t.written ++ (headerOf (E st.ekey (packet.take size)) ++
          compatPure (E st.ekey (packet.take size))) ∧
      (send E r st t msg).crypt =
        (match msg with
          | ServerMessage.init _ _ key => update_key st key
          | ServerMessage.ggAuth _ => st) := by
  cases hpre : prepare r msg with
  | error e =>
    rw [send_eq_error E r st t msg e hpre] at hs
    exact Option.noConfusion hs
  | ok ps =>
    obtain ⟨packet, size⟩ := ps
    refine ⟨packet, size, rfl, ?_⟩
    rw [send_eq_ok E r st t msg packet size hpre] at hs ⊢
    cases hbc : blowfish_compat (E st.ekey (packet.take size)) with
    | none =>
      simp only [sendBody, hbc] at hs
      exact Option.noConfusion hs
    | some body =>
      obtain ⟨hlen4, hbody⟩ := blowfish_compat_some _ _ hbc
      rcases ht1 : twrite t (headerOf (E st.ekey (packet.take size)))
        with ⟨b1, t1⟩
      cases b1 with
      | false =>
        simp only [sendBody, hbc, ht1] at hs
        exact Option.noConfusion hs
      | true =>
        rcases ht2 : twrite t1 body with ⟨b2, t2⟩
        cases b2 with
        | false =>
          simp only [sendBody, hbc, ht1, ht2] at hs
          exact Option.noConfusion hs
        | true =>
          have e1 := (twrite_true t _ t1 ht1).1
          have e2 := (twrite_true t1 _ t2 ht2).1
          cases hfl : tflush t2 with
          | false =>
            simp only [sendBody, hbc, ht1, ht2, hfl] at hs
            exact Option.noConfusion hs
          | true =>
            constructor
            · simp only [sendBody, hbc, ht1, ht2, hfl]
              rw [e2, e1]
              simp only [hbody, List.append_assoc]
            · simp only [sendBody, hbc, ht1, ht2, hfl]
              cases msg <;> rfl

/-- A `GGAuth` send never touches the crypto state, on any path
(success or failure). -/
theorem send_ggAuth_crypt (E : List Nat → List Nat → List Nat) (r : Nat)
    (st : CryptState) (t : Transport) (g : GGAuthResult) :
    (send E r st t (ServerMessage.ggAuth g)).crypt = st := by
  cases hpre : prepare r (ServerMessage.ggAuth g) with
  | error e => rw [send_eq_error E r st t _ e hpre]
  | ok ps =>
    obtain ⟨packet, size⟩ := ps
    rw [send_eq_ok E r st t _ packet size hpre]
    cases hbc : blowfish_compat (E st.ekey (packet.take size)) with
    | none => simp only [sendBody, hbc]
    | some body =>
      rcases ht1 : twrite t (headerOf (E st.ekey (packet.take size)))
        with ⟨b1, t1⟩
      cases b1 with
      | false => simp only [sendBody, hbc, ht1]
      | true =>
        rcases ht2 : twrite t1 body with ⟨b2, t2⟩
        cases b2 with
        | false => simp only [sendBody, hbc, ht1, ht2]
        | true =>
          cases hfl : tflush t2 <;>
            simp only [sendBody, hbc, ht1, ht2, hfl]

/-! ### The claims about `send` -/

/-- C1: a successful send of an `Init` message encrypts the packet body
under the cipher key that was active before the call (`st.ekey` appears
under `E` in the transmitted body), and the crypto state after the call
has both the encrypt and decrypt ciphers re-keyed with the `Init`
message's 16-byte traffic key (`update_key` runs inside the same
critical section in the source, so no intermediate state is
observable in this sequential model); every subsequent send from the
post-rotation state encrypts under that new key, and a send of a
non-Init message (`GGAuth`) leaves the cipher keys unchanged on every
path. -/
theorem c1_init_key_rotation (E : List Nat → List Nat → List Nat) (r : Nat)
    (st : CryptState) (t : Transport) (sid : Nat) (m k : List Nat)
    (hm : m.length = 128) (hk : k.length = 16)
    (hs : (send E r st t (ServerMessage.init sid m k)).res = none) :
    (send E r st t (ServerMessage.init sid m k)).crypt = ⟨k, k⟩ ∧
    (∃ packet, prepare r (ServerMessage.init sid m k) =
        Except.ok (packet, 184) ∧
      (send E r st t (ServerMessage.init sid m k)).transport.written =
        t.written ++ (headerOf (E st.ekey (packet.take 184)) ++
          compatPure (E st.ekey (packet.take 184)))) ∧
    (∀ g r2 st2 t2,
      (send E r2 st2 t2 (ServerMessage.ggAuth g)).crypt = st2) ∧
    (∀ msg2 r2 t2, (send E r2 ⟨k, k⟩ t2 msg2).res = none →
      ∃ p2 sz2, prepare r2 msg2 = Except.ok (p2, sz2) ∧
        (send E r2 ⟨k, k⟩ t2 msg2).transport.written =
          t2.written ++ (headerOf (E k (p2.take sz2)) ++
            compatPure (E k (p2.take sz2)))) := by
  obtain ⟨packet, size, hpre, hwr, hcr⟩ := send_shape E r st t _ hs
  obtain ⟨p, hpe, hplen⟩ := prepare_init_eq r sid m k hm hk
  rw [hpe] at hpre
  simp only [Except.ok.injEq, Prod.mk.injEq] at hpre
  obtain ⟨hpp, hss⟩ := hpre
  refine ⟨hcr, ⟨packet, ?_, ?_⟩, ?_, ?_⟩
  · rw [← hpp]
    exact hpe
  · rw [hss]
    exact hwr
  · intro g r2 st2 t2
    exact send_ggAuth_crypt E r2 st2 t2 g
  · intro msg2 r2 t2 hs2
    obtain ⟨p2, sz2, hpre2, hwr2, _⟩ := send_shape E r2 ⟨k, k⟩ t2 msg2 hs2
    exact ⟨p2, sz2, hpre2, hwr2⟩

set_option maxRecDepth 10000 in
set_option maxHeartbeats 2000000 in
/-- Witness for C1: a concrete successful `Init` send with the identity
cipher rotates both keys to the message's traffic key. -/
theorem c1_init_key_rotation_witness :
    (send idCipher 0 ⟨INIT_KEY, INIT_KEY⟩ ⟨1000, [], true⟩
      (ServerMessage.init 0 (List.replicate 128 0)
        (List.replicate 16 0))).crypt =
      ⟨List.replicate 16 0, List.replicate 16 0⟩ :=
  (c1_init_key_rotation idCipher 0 ⟨INIT_KEY, INIT_KEY⟩ ⟨1000, [], true⟩ 0
    (List.replicate 128 0) (List.replicate 16 0) (by simp) (by simp)
    (by decide)).1

/-- C6: whenever a padding step would reach or exceed the 1024-byte
buffer capacity, `pad` fails with the `EncodingOverflow` error; and a
`send` that reports `EncodingOverflow` has taken no crypto-state lock
and written no transport bytes: its crypto state and transport are the
caller's, unchanged. -/
theorem c6_overflow_guard (size bs : Nat) (hbs : 0 < bs)
    (E : List Nat → List Nat → List Nat) (r : Nat) (st : CryptState)
    (t : Transport) (msg : ServerMessage) :
    (1024 ≤ roundUp size bs →
      pad size bs = Except.error SendError.encodingOverflow) ∧
    ((send E r st t msg).res = some SendError.encodingOverflow →
      (send E r st t msg).crypt = st ∧ (send E r st t msg).transport = t) := by
  constructor
  · intro h
    unfold pad
    rw [if_neg (by show ¬ roundUp size bs < BUFFER_SIZE; unfold BUFFER_SIZE; omega)]
  · intro hres
    cases hpre : prepare r msg with
    | error e =>
      rw [send_eq_error E r st t msg e hpre]
      exact ⟨rfl, rfl⟩
    | ok ps =>
      obtain ⟨packet, sz⟩ := ps
      rw [send_eq_ok E r st t msg packet sz hpre] at hres
      exfalso
      cases hbc : blowfish_compat (E st.ekey (packet.take sz)) with
      | none =>
        simp only [sendBody, hbc, Option.some.injEq] at hres
        exact SendError.noConfusion hres
      | some body =>
        rcases ht1 : twrite t (headerOf (E st.ekey (packet.take sz)))
          with ⟨b1, t1⟩
        cases b1 with
        | false =>
          simp only [sendBody, hbc, ht1, Option.some.injEq] at hres
          exact SendError.noConfusion hres
        | true =>
          rcases ht2 : twrite t1 body with ⟨b2, t2⟩
          cases b2 with
          | false =>
            simp only [sendBody, hbc, ht1, ht2, Option.some.injEq] at hres
            exact SendError.noConfusion hres
          | true =>
            cases hfl : tflush t2 with
            | false =>
              simp only [sendBody, hbc, ht1, ht2, hfl,
                Option.some.injEq] at hres
              exact SendError.noConfusion hres
            | true =>
              simp only [sendBody, hbc, ht1, ht2, hfl] at hres
              exact Option.noConfusion hres

/-- Witness for C6: padding 1024 to a multiple of 4 reaches the
capacity, so `pad` reports the overflow error. -/
theorem c6_overflow_guard_witness :
    pad 1024 4 = Except.error SendError.encodingOverflow :=
  (c6_overflow_guard 1024 4 (by decide) idCipher 0 ⟨INIT_KEY, INIT_KEY⟩
    ⟨100, [], true⟩ (ServerMessage.ggAuth GGAuthResult.skip)).1 (by decide)

set_option maxRecDepth 10000 in
/-- Counterexample to C7 as stated: with a transport that accepts the
2-byte header and then fails on the body (as any socket can), `send`
returns an error even though the header bytes are already on the wire —
a failing send can leave a partial packet. -/
theorem c7_counterexample :
    (send idCipher 0 ⟨INIT_KEY, INIT_KEY⟩ ⟨2, [], true⟩
        (ServerMessage.ggAuth GGAuthResult.skip)).res =
      some SendError.ioFailure ∧
    (send idCipher 0 ⟨INIT_KEY, INIT_KEY⟩ ⟨2, [], true⟩
        (ServerMessage.ggAuth GGAuthResult.skip)).transport.written =
      [34, 0] ∧
    ([34, 0] : List Nat) ≠ [] := by
  refine ⟨by decide, by decide, by decide⟩

/-- C7 (amended): `send` either succeeds having transmitted exactly one
complete wire packet (2-byte header followed by the full encrypted
body, then a successful flush), or fails; every failure other than a
transport IO failure leaves the transport untouched, and a transport IO
failure leaves a prefix of the single intended frame on the wire —
possibly no bytes (header write failed at once), possibly just the
header (body write failed), and possibly the complete frame (the final
flush failed after both writes) — never more than one frame and never
bytes of a different packet. -/
theorem c7_transmission (E : List Nat → List Nat → List Nat) (r : Nat)
    (st : CryptState) (t : Transport) (msg : ServerMessage) :
    ((send E r st t msg).res = none →
      ∃ packet size, prepare r msg = Except.ok (packet, size) ∧
        (send E r st t msg).transport.written =
          t.written ++ (headerOf (E st.ekey (packet.take size)) ++
            compatPure (E st.ekey (packet.take size)))) ∧
    (∀ e, (send E r st t msg).res = some e → e ≠ SendError.ioFailure →
      (send E r st t msg).transport = t) ∧
    ((send E r st t msg).res = some SendError.ioFailure →
      (send E r st t msg).transport = t ∨
      ∃ packet size kk, prepare r msg = Except.ok (packet, size) ∧
        kk ≤ (headerOf (E st.ekey (packet.take size)) ++
          compatPure (E st.ekey (packet.take size))).length ∧
        (send E r st t msg).transport.written =
          t.written ++ (headerOf (E st.ekey (packet.take size)) ++
            compatPure (E st.ekey (packet.take size))).take kk) := by
  refine ⟨?_, ?_, ?_⟩
  · intro hs
    obtain ⟨packet, size, h1, h2, _⟩ := send_shape E r st t msg hs
    exact ⟨packet, size, h1, h2⟩
  · intro e hres hne
    cases hpre : prepare r msg with
    | error e' =>
      rw [send_eq_error E r st t msg e' hpre]
    | ok ps =>
      obtain ⟨packet, sz⟩ := ps
      rw [send_eq_ok E r st t msg packet sz hpre] at hres ⊢
      cases hbc : blowfish_compat (E st.ekey (packet.take sz)) with
      | none => simp only [sendBody, hbc]
      | some body =>
        rcases ht1 : twrite t (headerOf (E st.ekey (packet.take sz)))
          with ⟨b1, t1⟩
        cases b1 with
        | false =>
          simp only [sendBody, hbc, ht1, Option.some.injEq] at hres
          exact absurd hres.symm hne
        | true =>
          rcases ht2 : twrite t1 body with ⟨b2, t2⟩
          cases b2 with
          | false =>
            simp only [sendBody, hbc, ht1, ht2, Option.some.injEq] at hres
            exact absurd hres.symm hne
          | true =>
            cases hfl : tflush t2 with
            | false =>
              simp only [sendBody, hbc, ht1, ht2, hfl,
                Option.some.injEq] at hres
              exact absurd hres.symm hne
            | true =>
              simp only [sendBody, hbc, ht1, ht2, hfl] at hres
              exact Option.noConfusion hres
  · intro hres
    cases hpre : prepare r msg with
    | error e' =>
      rw [send_eq_error E r st t msg e' hpre]
      exact Or.inl rfl
    | ok ps =>
      obtain ⟨packet, sz⟩ := ps
      rw [send_eq_ok E r st t msg packet sz hpre] at hres ⊢
      cases hbc : blowfish_compat (E st.ekey (packet.take sz)) with
      | none =>
        simp only [sendBody, hbc, Option.some.injEq] at hres
        exact SendError.noConfusion hres
      | some body =>
        obtain ⟨hlen4, hbody⟩ := blowfish_compat_some _ _ hbc
        rcases ht1 : twrite t (headerOf (E st.ekey (packet.take sz)))
          with ⟨b1, t1⟩
        cases b1 with
        | false =>
          obtain ⟨e1, hc1⟩ := twrite_false t _ t1 ht1
          refine Or.inr ⟨packet, sz, t.cap - t.written.length, rfl, ?_, ?_⟩
          · rw [List.length_append]
            have h2 : (headerOf (E st.ekey (packet.take sz))).length = 2 := rfl
            omega
          · simp only [sendBody, hbc, ht1]
            rw [e1]
            have h2 : (headerOf (E st.ekey (packet.take sz))).length = 2 := rfl
            rw [List.take_append_eq_append_take,
              show t.cap - t.written.length -
                (headerOf (E st.ekey (packet.take sz))).length = 0 by omega,
              List.take_zero, List.append_nil]
        | true =>
          obtain ⟨e1, hc1⟩ := twrite_true t _ t1 ht1
          rcases ht2 : twrite t1 body with ⟨b2, t2⟩
          cases b2 with
          | false =>
            obtain ⟨e2, hc2⟩ := twrite_false t1 body t2 ht2
            have hcap1 : t1.cap = t.cap := by rw [e1]
            have hw1 : t1.written =
                t.written ++ headerOf (E st.ekey (packet.take sz)) := by
              rw [e1]
            have h2 : (headerOf (E st.ekey (packet.take sz))).length = 2 := rfl
            have hwlen : t1.written.length = t.written.length + 2 := by
              rw [hw1, List.length_append, h2]
            set k2 := t1.cap - t1.written.length with hk2
            refine Or.inr ⟨packet, sz,
              (headerOf (E st.ekey (packet.take sz))).length + k2, rfl,
              ?_, ?_⟩
            · rw [List.length_append]
              have hlt : k2 < body.length := by omega
              have hbl : body.length =
                  (E st.ekey (packet.take sz)).length := by
                rw [hbody, length_compatPure]
              rw [length_compatPure]
              omega
            · simp only [sendBody, hbc, ht1, ht2]
              rw [e2, take_append_plus, hw1, hbody, List.append_assoc]
          | true =>
            obtain ⟨e2, hc2⟩ := twrite_true t1 body t2 ht2
            cases hfl : tflush t2 with
            | true =>
              simp only [sendBody, hbc, ht1, ht2, hfl] at hres
              exact Option.noConfusion hres
            | false =>
              have hw1 : t1.written =
                  t.written ++ headerOf (E st.ekey (packet.take sz)) := by
                rw [e1]
              refine Or.inr ⟨packet, sz,
                (headerOf (E st.ekey (packet.take sz)) ++
                  compatPure (E st.ekey (packet.take sz))).length,
                rfl, le_refl _, ?_⟩
              simp only [sendBody, hbc, ht1, ht2, hfl]
              rw [List.take_length, e2, hw1, hbody, List.append_assoc]

set_option maxRecDepth 10000 in
/-- Witness for the amended C7 at a concrete successful send: the full
frame appears on the transport. -/
theorem c7_transmission_witness :
    ∃ packet size,
      prepare 0 (ServerMessage.ggAuth GGAuthResult.skip) =
        Except.ok (packet, size) ∧
      (send idCipher 0 ⟨INIT_KEY, INIT_KEY⟩ ⟨100, [], true⟩
          (ServerMessage.ggAuth GGAuthResult.skip)).transport.written =
        ([] : List Nat) ++
          (headerOf (idCipher INIT_KEY (packet.take size)) ++
            compatPure (idCipher INIT_KEY (packet.take size))) :=
  (c7_transmission idCipher 0 ⟨INIT_KEY, INIT_KEY⟩ ⟨100, [], true⟩
    (ServerMessage.ggAuth GGAuthResult.skip)).1 (by decide)

/-- C9: on every successful send of a well-formed message under a
length-preserving block cipher, the 2-byte little-endian header written
ahead of the body has value `size + HEADER_SIZE` with `HEADER_SIZE = 2`,
where `size` is the number of encrypted body bytes that follow it — the
header carries the total frame size including itself. -/
theorem c9_frame_header (E : List Nat → List Nat → List Nat) (r : Nat)
    (st : CryptState) (t : Transport) (msg : ServerMessage)
    (hE : ∀ key x, (E key x).length = x.length) (hwf : wfMessage msg)
    (hs : (send E r st t msg).res = none) :
    ∃ hdr body, (send E r st t msg).transport.written =
        t.written ++ (hdr ++ body) ∧
      hdr.length = 2 ∧
      hdr.getD 0 0 + 256 * hdr.getD 1 0 = body.length + 2 ∧
      body.length + 2 < 65536 := by
  obtain ⟨packet, size, hpre, hwr, _⟩ := send_shape E r st t msg hs
  obtain ⟨hplen, hsz⟩ := prepare_ok_bounds r msg hwf packet size hpre
  have hel : (E st.ekey (packet.take size)).length = size := by
    rw [hE, List.length_take, hplen]
    omega
  refine ⟨headerOf (E st.ekey (packet.take size)),
    compatPure (E st.ekey (packet.take size)), hwr, rfl, ?_, ?_⟩
  · show ((E st.ekey (packet.take size)).length + 2) % 256 +
      256 * (((E st.ekey (packet.take size)).length + 2) % 65536 / 256) =
      (compatPure (E st.ekey (packet.take size))).length + 2
    rw [length_compatPure, hel]
    omega
  · rw [length_compatPure, hel]
    omega

set_option maxRecDepth 10000 in
/-- Witness for C9 at a concrete successful `GGAuth` send with the
identity cipher. -/
theorem c9_frame_header_witness :
    ∃ hdr body,
      (send idCipher 0 ⟨INIT_KEY, INIT_KEY⟩ ⟨100, [], true⟩
          (ServerMessage.ggAuth GGAuthResult.skip)).transport.written =
        ([] : List Nat) ++ (hdr ++ body) ∧
      hdr.length = 2 ∧
      hdr.getD 0 0 + 256 * hdr.getD 1 0 = body.length + 2 ∧
      body.length + 2 < 65536 :=
  c9_frame_header idCipher 0 ⟨INIT_KEY, INIT_KEY⟩ ⟨100, [], true⟩
    (ServerMessage.ggAuth GGAuthResult.skip) (fun _ _ => rfl) trivial
    (by decide)

end MMO
